import Mathlib

/-!
Verification of the electrum-mars blockchain engine
(src/electrum_mars/blockchain.py) against its natural-language
specification.  Hex strings are modelled as lists of nibble values
(naturals below 16) and byte strings as lists of naturals below 256;
Python exceptions are modelled with the Except monad.
-/

set_option autoImplicit false

namespace ElectrumMars

/-! ### Hex and byte utilities

Python formats integers with repr "%x"; we model the resulting string as
its list of hex-digit values (big-endian).  The definitions use an
explicit numeric fuel argument equal to the input so that they are
structurally recursive and reduce definitionally.
-/

/-- Big-endian hex digits of a natural number, fuelled helper.
The fuel is always at least the recursion depth when called with fuel
equal to the number itself. -/
def toNibblesAux : Nat → Nat → List Nat
  | 0, n => [n]
  | f + 1, n => if n < 16 then [n] else toNibblesAux f (n / 16) ++ [n % 16]

/-- Big-endian hex digits of a natural number, mirroring the Python
format string applied to a nonnegative integer (the hex digits of 0 are
the single digit 0). -/
def toNibbles (n : Nat) : List Nat := toNibblesAux n n

/-- Value of a big-endian list of hex digits. -/
def nibblesToNat (l : List Nat) : Nat := l.foldl (fun a d => a * 16 + d) 0

/-- Big-endian base-256 digits of a natural number, fuelled helper. -/
def natBytesAux : Nat → Nat → List Nat
  | 0, n => [n]
  | f + 1, n => if n < 256 then [n] else natBytesAux f (n / 256) ++ [n % 256]

/-- Big-endian base-256 digits of a natural number. -/
def natBytes (n : Nat) : List Nat := natBytesAux n n

/-- Value of a big-endian byte list. -/
def beNat (l : List Nat) : Nat := l.foldl (fun a b => a * 256 + b) 0

/-- Value of a little-endian byte list; models Python int.from_bytes with
byteorder little. -/
def leNat (l : List Nat) : Nat := l.foldr (fun b a => a * 256 + b) 0

/-- Hex digits of a byte list: every byte contributes its high and low
nibble. -/
def bytesToNibbles (l : List Nat) : List Nat :=
  l.flatMap (fun b => [b / 16, b % 16])

/-- Pair up a hex-digit list into bytes from the left; models Python
bytes.fromhex (the list length is even at every call site). -/
def bfh : List Nat → List Nat
  | [] => []
  | [a] => [a]
  | a :: b :: r => (a * 16 + b) :: bfh r

/-- Models the Python format "%0wx" applied to a nonnegative integer:
the hex digits left-padded with zeros to width w (longer inputs are kept
unchanged). -/
def padHex (w : Nat) (n : Nat) : List Nat :=
  List.replicate (w - (toNibbles n).length) 0 ++ toNibbles n

/-! ### Classic compact codec (Blockchain.target_to_bits and
Blockchain.bits_to_target, blockchain.py lines 957 to 976) -/

/-- One stripping step of target_to_bits, fuelled by the list length:
while c starts with the two characters 00 and is longer than 6
characters, drop the first two. -/
def stripCAux : Nat → List Nat → List Nat
  | 0, c => c
  | f + 1, c => if 6 < c.length ∧ c.take 2 = [0, 0] then stripCAux f (c.drop 2) else c

/-- The while loop of target_to_bits stripping leading 00 byte pairs. -/
def stripC (c : List Nat) : List Nat := stripCAux c.length c

/-- Blockchain.target_to_bits: format the target as 64 hex digits, drop
the first two digits, strip leading 00 pairs down to at least 6 digits,
and pack length and leading three bytes into the compact word, bumping
the exponent when the mantissa would carry the sign bit. -/
def target_to_bits (target : Nat) : Nat :=
  let c0 := (padHex 64 target).drop 2
  let c := stripC c0
  let bitsN := c.length / 2
  let bitsBase := nibblesToNat (c.take 6)
  if 0x800000 ≤ bitsBase then
    ((bitsN + 1) <<< 24) ||| (bitsBase >>> 8)
  else
    (bitsN <<< 24) ||| bitsBase

/-- Blockchain.bits_to_target: reject an exponent outside 0x03..0x1e or
a mantissa outside 0x8000..0x7fffff, otherwise shift the mantissa. -/
def bits_to_target (bits : Nat) : Except String Nat :=
  let bitsN := (bits >>> 24) &&& 0xff
  if ¬ (0x03 ≤ bitsN ∧ bitsN ≤ 0x1e) then
    .error "First part of bits should be in [0x03, 0x1e]"
  else
    let bitsBase := bits &&& 0xffffff
    if ¬ (0x8000 ≤ bitsBase ∧ bitsBase ≤ 0x7fffff) then
      .error "Second part of bits should be in [0x8000, 0x7fffff]"
    else
      .ok (bitsBase <<< (8 * (bitsN - 3)))


/-! ### OurBigNum (blockchain.py lines 79 to 155) -/

/-- The filling loop of OurBigNum.set_hex, acting on the reversed digit
list: the Python loop writes nibble i (counted from the right end of the
string) into byte i / 2 (counted from the right end of the array) at bit
offset (i mod 2) * 4, so consecutive digit pairs from the right end form
bytes, with a leading unpaired digit forming its own byte. -/
def pairUpRev : List Nat → List Nat
  | [] => []
  | [a] => [a]
  | a :: b :: r => (b * 16 + a) :: pairUpRev r

/-- OurBigNum.set_hex (lines 83 to 97): big-endian data bytes built from
the hex-digit values of the input string. -/
def set_hex (nibs : List Nat) : List Nat := (pairUpRev nibs.reverse).reverse

/-- Big-endian 4-byte encoding of a length word; models Python
int.to_bytes(4, byteorder big) for values below 2 to the 32. -/
def beBytes4 (n : Nat) : List Nat :=
  [(n >>> 24) &&& 0xff, (n >>> 16) &&& 0xff, (n >>> 8) &&& 0xff, n &&& 0xff]

/-- OurBigNum.to_mpi (lines 99 to 126): strip leading zero bytes, return
the zero MPI for an empty result, otherwise prepend a sign-avoiding zero
byte when the top bit of the first data byte is set and prefix the
4-byte big-endian length. -/
def to_mpi (data : List Nat) : List Nat :=
  let d := data.dropWhile (· == 0)
  if d = [] then [0, 0, 0, 0]
  else
    let length := d.length + (if d.headI &&& 0x80 ≠ 0 then 1 else 0)
    beBytes4 length ++ (if d.headI &&& 0x80 ≠ 0 then [0] else []) ++ d

/-- OurBigNum.get_compact (lines 128 to 155): compact word with the data
length in the top byte and the first up to three data bytes as mantissa,
shifting one byte to the right when bit 23 would be set. -/
def get_compact (data : List Nat) : Nat :=
  let vch := to_mpi data
  let n_size := vch.length - 4
  let c0 := n_size <<< 24
  let c1 := if 1 ≤ n_size then c0 ||| (vch.getD 4 0 <<< 16) else c0
  let c2 := if 2 ≤ n_size then c1 ||| (vch.getD 5 0 <<< 8) else c1
  let c3 := if 3 ≤ n_size then c2 ||| vch.getD 6 0 else c2
  if c3 &&& 0x00800000 ≠ 0 then
    ((n_size + 1) <<< 24) ||| ((c3 >>> 8) &&& 0x007fffff)
  else c3

/-! ### ASERT compact codec (blockchain.py lines 925 to 955) -/

/-- Blockchain.asert_target_to_bits: format the target in minimal hex,
strip leading zero digits, and run the OurBigNum compact encoder.  The
height argument is unused by the computation, as in the source. -/
def asert_target_to_bits (target : Nat) (_height : Int) : Nat :=
  let hex_str := (toNibbles target).dropWhile (· == 0)
  get_compact (set_hex hex_str)

/-- Blockchain.asert_bits_to_target: signed-magnitude compact decoder
with uint32, sign and overflow checks.  Note that in the source the
variable nword is shifted in place in the small-size branch before the
checks read it. -/
def asert_bits_to_target (ncompact : Nat) : Except String Nat :=
  if ¬ ncompact < 2 ^ 32 then .error "ncompact should be uint32"
  else
    let nsize := ncompact >>> 24
    let nword0 := ncompact &&& 0x007fffff
    let nword := if nsize ≤ 3 then nword0 >>> (8 * (3 - nsize)) else nword0
    let ret := if nsize ≤ 3 then nword else nword0 <<< (8 * (nsize - 3))
    if nword ≠ 0 ∧ ncompact &&& 0x00800000 ≠ 0 then
      .error "target cannot be negative"
    else if nword ≠ 0 ∧ (34 < nsize ∨ (0xff < nword ∧ 33 < nsize) ∨
        (0xffff < nword ∧ 32 < nsize)) then
      .error "target has overflown"
    else .ok ret


/-! ### Constants (blockchain.py lines 46 to 72) -/

def HEADER_SIZE : Nat := 80

def MAX_TARGET : Nat := 0x00000FFFFF000000000000000000000000000000000000000000000000000000

def DGW_PAST_BLOCKS : Nat := 24

def POW_DGW3_HEIGHT : Int := 126000

def POW_TARGET_SPACING : Int := 123

def ASERT_HEIGHT : Int := 2999999

/-- The CHECKPOINT_BITS table (lines 55 to 72), as a partial map from
heights to expected bits. -/
def CHECKPOINT_BITS : Int → Option Nat := fun h =>
  if h = 2999999 then some 0x1e0fffff
  else if h = 3000000 then some 0x1e0fcfef
  else if h = 3000001 then some 0x1e0fa86f
  else if h = 3000002 then some 0x1e0f8157
  else if h = 3000100 then some 0x1e05ec8f
  else if h = 3000999 then some 0x1c3908fc
  else if h = 3001999 then some 0x1c009e02
  else if h = 3010999 then some 0x1c00c5a0
  else if h = 3030048 then some 0x1c00d6e9
  else if h = 3030977 then some 0x1c00b788
  else if h = 3030978 then some 0x1c00bc01
  else if h = 3055555 then some 0x1c0097e6
  else if h = 3085376 then some 0x1c00bf09
  else if h = 3150020 then some 0x1c016afc
  else if h = 3150021 then some 0x1c0167ec
  else if h = 3150022 then some 0x1c0168d3
  else none

/-! ### Header codec (blockchain.py lines 163 to 200)

The helpers int_to_hex, rev_hex and hash_encode live in the bitcoin and
util modules of this repository, which are not among the sources at
hand; they are modelled from specification section 4.1 (4-byte
little-endian integers, hashes stored byte-reversed).
-/

/-- A decoded block header: the dict produced by deserialize_header.
The previous-hash field is optional because hash_header accepts headers
lacking it and substitutes the all-zero hash. -/
structure Header where
  version : Nat
  prev_block_hash : Option (List Nat)
  merkle_root : List Nat
  timestamp : Int
  bits : Nat
  nonce : Nat
  block_height : Int
deriving Repr, DecidableEq

/-- Little-endian byte list of a given width. -/
def leBytes : Nat → Nat → List Nat
  | 0, _ => []
  | w + 1, i => (i % 256) :: leBytes w (i / 256)

/-- Modelled from the spec: bitcoin.int_to_hex, an integer shown as the
hex string of its little-endian encoding in the given number of bytes
(spec 4.1: version, timestamp, bits, nonce are 4-byte little-endian). -/
def int_to_hex (i : Nat) (blen : Nat) : List Nat := bytesToNibbles (leBytes blen i)

/-- Modelled from the spec: bitcoin.rev_hex, the hex string of the
reversed byte sequence (spec 4.1: hashes are stored byte-reversed). -/
def rev_hex (s : List Nat) : List Nat := bytesToNibbles ((bfh s).reverse)

/-- Modelled from the spec: bitcoin.hash_encode, hex display of a byte
string in reversed byte order (spec 4.1: hex-displayed reversed). -/
def hash_encode (b : List Nat) : List Nat := bytesToNibbles b.reverse

/-- serialize_header (lines 163 to 170), producing the hex-digit string.
The source reads the previous-hash entry of the dict directly; its only
callers ensure the entry is present (hash_header fills the all-zero
value at line 192), so the default value here is never observed. -/
def serialize_header (h : Header) : List Nat :=
  int_to_hex h.version 4 ++
  rev_hex (h.prev_block_hash.getD (List.replicate 64 0)) ++
  rev_hex h.merkle_root ++
  int_to_hex h.timestamp.toNat 4 ++
  int_to_hex h.bits 4 ++
  int_to_hex h.nonce 4

/-- deserialize_header (lines 172 to 186) on a byte string. -/
def deserialize_header (s : List Nat) (height : Int) : Except String Header :=
  if s = [] then .error "Invalid header"
  else if s.length ≠ HEADER_SIZE then .error "Invalid header length"
  else .ok {
    version := leNat ((s.drop 0).take 4)
    prev_block_hash := some (hash_encode ((s.drop 4).take 32))
    merkle_root := hash_encode ((s.drop 36).take 32)
    timestamp := (leNat ((s.drop 68).take 4) : Int)
    bits := leNat ((s.drop 72).take 4)
    nonce := leNat ((s.drop 76).take 4)
    block_height := height }

/-- hash_raw_header (lines 196 to 197).  The double-SHA256 function is a
parameter of the model, mapping 80 bytes to 32 bytes. -/
def hash_raw_header (sha256d : List Nat → List Nat) (header : List Nat) : List Nat :=
  hash_encode (sha256d (bfh header))

/-- hash_header (lines 188 to 193) for a present header dict: a missing
previous hash is replaced by the all-zero hash before hashing. -/
def hash_header (sha256d : List Nat → List Nat) (h : Header) : List Nat :=
  let h2 : Header :=
    if h.prev_block_hash = none then { h with prev_block_hash := some (List.replicate 64 0) }
    else h
  hash_raw_header sha256d (serialize_header h2)

/-- pow_hash_header (lines 199 to 200).  The scrypt proof-of-work hash
is a parameter of the model. -/
def pow_hash_header (powHash : List Nat → List Nat) (h : Header) : List Nat :=
  hash_encode (powHash (bfh (serialize_header h)))

/-! ### Network parameters and chain storage model -/

/-- Modelled from the spec: the constants module with the network
parameters is not among the sources at hand.  Spec sections 4.3 and 6
describe a testnet flag, a configured genesis id, a maximal checkpoint
height and a checkpoint table whose entries carry the hash of the last
block of a chunk. -/
structure Net where
  TESTNET : Bool
  GENESIS : List Nat
  max_checkpoint : Int
  checkpoint_hash : Int → List Nat

/-- Read access to the persisted headers of a chain.  read_header
(lines 663 to 681) walks the backing file and delegates to the parent
chain below the forkpoint; the model collapses the whole lookup into one
function from heights to optional headers. -/
structure ChainModel where
  readHeader : Int → Option Header

/-- Blockchain.get_hash (lines 702 to 721). -/
def get_hash (net : Net) (sha256d : List Nat → List Nat) (c : ChainModel)
    (height : Int) : Except String (List Nat) :=
  let within_cp_range := height ≤ net.max_checkpoint
  let at_chunk_boundary := Int.emod (height + 1) 2016 = 0
  if height = -1 then
    .ok (List.replicate 64 0)
  else if height = 0 then
    .ok net.GENESIS
  else if within_cp_range ∧ at_chunk_boundary then
    .ok (net.checkpoint_hash (Int.fdiv height 2016))
  else
    match c.readHeader height with
    | none => .error "MissingHeader"
    | some h => .ok (hash_header sha256d h)

/-! ### Difficulty engine (blockchain.py lines 732 to 921) -/

/-- The pending-headers window threaded through verify_chunk: an empty
flag, the covered height range and the decoded headers. -/
structure ChunkHeaders where
  empty : Bool
  min_height : Int
  max_height : Int
  get : Int → Option Header

/-- One reading of the loop of get_target_dgw_v3 (lines 774 to 779):
look the header up in the chain, then in the pending chunk window. -/
def dgwReadHeader (c : ChainModel) (chunk : ChunkHeaders) (reading_h : Int) :
    Except String Header :=
  let viaChain := c.readHeader reading_h
  let found := if viaChain = none ∧ chunk.empty = false ∧
      chunk.min_height ≤ reading_h ∧ reading_h ≤ chunk.max_height
    then chunk.get reading_h else viaChain
  match found with
  | none => .error "MissingHeader"
  | some h => .ok h

/-- The counting loop of get_target_dgw_v3 (lines 772 to 788), iterating
count_blocks upward while it is at most DGW_PAST_BLOCKS; remaining is
DGW_PAST_BLOCKS + 1 - count.  Returns the final running average, the
newest timestamp and the timestamp of the last header read. -/
def dgwLoop (c : ChainModel) (chunk : ChunkHeaders) (height : Int) :
    Nat → Nat → Nat → Int → Int → Except String (Nat × Int × Int)
  | 0, _count, past, lastT, readT => .ok (past, lastT, readT)
  | r + 1, count, past, lastT, _readT => do
    let hd ← dgwReadHeader c chunk (height - (count : Int))
    let reading_time := hd.timestamp
    let reading_target ← bits_to_target hd.bits
    let past1 := if count = 1 then reading_target else past
    let last1 := if count = 1 then reading_time else lastT
    let past2 := (past1 * count + reading_target) / (count + 1)
    dgwLoop c chunk height r (count + 1) past2 last1 reading_time

/-- Blockchain.get_target_dgw_v3 (lines 765 to 806).  The quantities fed
to the final division are nonnegative: the clamped timespan is at least
a third of the positive target timespan, so the conversion back to a
natural number is exact. -/
def get_target_dgw_v3 (c : ChainModel) (height : Int) (chunk : ChunkHeaders) :
    Except String Nat := do
  let (past_target_avg, last_time, reading_time) ←
    dgwLoop c chunk height DGW_PAST_BLOCKS 1 0 0 0
  let actual_timespan0 := last_time - reading_time
  let target_timespan : Int := (DGW_PAST_BLOCKS : Int) * POW_TARGET_SPACING
  let a1 := if actual_timespan0 < Int.fdiv target_timespan 3
    then Int.fdiv target_timespan 3 else actual_timespan0
  let a2 := if target_timespan * 3 < a1 then target_timespan * 3 else a1
  let new_target := Int.fdiv ((past_target_avg : Int) * a2) target_timespan
  if (MAX_TARGET : Int) < new_target then
    return MAX_TARGET
  else
    bits_to_target (target_to_bits new_target.toNat)

/-- Blockchain.cpp_divide (lines 809 to 814): division rounding toward
zero.  Python floor division and the explicit sign fixup of the source
combine to truncating division. -/
def cpp_divide (n d : Int) : Int :=
  if Xor' (n < 0) (d < 0) then -((n.natAbs / d.natAbs : Nat) : Int)
  else Int.fdiv n d

/-- Blockchain.get_target_asert (lines 816 to 921).  The first
assignments of time_diff and height_diff at lines 838 and 839 are
overwritten at lines 845 and 846 and are not modelled; the anchor
target first computed with bits_to_target at line 837 is recomputed
with asert_bits_to_target at line 892, and only the possible exception
of the first computation is observable.  Python right shift and bit-and
on possibly negative integers are floor division and nonnegative
remainder. -/
def get_target_asert (c : ChainModel) (height : Int) (prev_header : Header) :
    Except String Nat :=
  let HALF_LIFE : Int := 2 * 3600
  let TARGET_SPACING : Int := 123
  let ANCHOR_HEIGHT : Int := 2999999
  let prev_height := height - 1
  if prev_height < ANCHOR_HEIGHT then .ok MAX_TARGET
  else
    match c.readHeader ANCHOR_HEIGHT with
    | none => .error "Anchor block header not found"
    | some anchor_header =>
      (bits_to_target anchor_header.bits).bind fun _anchor_target_first =>
      let time_diff := prev_header.timestamp - anchor_header.timestamp
      let height_diff := prev_height - ANCHOR_HEIGHT
      let expected_secs := if height_diff < 0 then 0 else TARGET_SPACING * (height_diff + 1)
      let actual_secs := time_diff
      let numerator := (actual_secs - expected_secs) * 65536
      let exponent := cpp_divide numerator HALF_LIFE
      let shifts := Int.fdiv exponent 65536
      let frac := (Int.emod exponent 65536).toNat
      let factor : Nat := 65536 + ((195766423245049 * frac + 971821376 * frac * frac +
          5127 * frac * frac * frac + (1 <<< 47)) >>> 48)
      (asert_bits_to_target anchor_header.bits).bind fun anchor_target =>
      let next_target0 := (anchor_target * factor) >>> 16
      let shifts2 := shifts - 16
      let next_target := if shifts2 < 0 then next_target0 >>> (-shifts2).toNat
        else next_target0 <<< shifts2.toNat
      .ok (asert_target_to_bits next_target height)

/-- Blockchain.get_target (lines 732 to 762). -/
def get_target (c : ChainModel) (height : Int) (chunk_headers : Option ChunkHeaders) :
    Except String Nat :=
  let chunk := chunk_headers.getD ⟨true, 0, 0, fun _ => none⟩
  if POW_DGW3_HEIGHT ≤ height ∧ height < ASERT_HEIGHT then
    get_target_dgw_v3 c height chunk
  else if ASERT_HEIGHT ≤ height then
    let prev_height := height - 1
    let prev := if chunk.empty = false ∧ chunk.min_height ≤ prev_height ∧
        prev_height ≤ chunk.max_height
      then chunk.get prev_height
      else c.readHeader prev_height
    match prev with
    | none => .error "Previous header not found"
    | some prev_header => get_target_asert c height prev_header
  else .ok MAX_TARGET

/-! ### Header verification (blockchain.py lines 419 to 486) -/

/-- Blockchain.verify_header.  The Python function normally returns None
but can also return False: the raise of the insufficient-work error
inside the try block at line 482 is caught by the enclosing handler at
line 484, which returns False.  The result type distinguishes a raised
exception (error), the normal return None, and the return of False.
The branches at lines 453 to 457 and 462 to 471 for heights equal to or
above ASERT_HEIGHT are unreachable because of the early return at lines
435 to 442, and only the reachable code is modelled. -/
def verify_header (net : Net) (sha256d powHash : List Nat → List Nat)
    (header : Header) (prev_hash : List Nat) (target : Nat)
    (expected_header_hash : Option (List Nat)) : Except String (Option Bool) :=
  let height := header.block_height
  let hash0 := hash_header sha256d header
  let powhash := pow_hash_header powHash header
  if expected_header_hash.isSome ∧ expected_header_hash ≠ some hash0 then
    .error "hash mismatches with expected"
  else if header.prev_block_hash ≠ some prev_hash then
    .error "prev hash mismatch"
  else if net.TESTNET then .ok none
  else if ASERT_HEIGHT ≤ height then
    match CHECKPOINT_BITS height with
    | some expected_bits =>
      if header.bits ≠ expected_bits then .error "bits mismatch at checkpoint height"
      else .ok none
    | none => .ok none
  else
    let bits := target_to_bits target
    if bits ≠ header.bits then .error "bits mismatch"
    else
      let block_hash_as_num := beNat (bfh powhash)
      let pow_bits := target_to_bits block_hash_as_num
      if target < pow_bits then .ok (some false)
      else .ok none

/-! ### Chainwork (blockchain.py lines 978 to 1012)

The global _CHAINWORK_CACHE is hash-addressed; the model passes the
cache contents as a function and treats the writes inside
get_chainwork as memoization with no observable effect on the returned
value, computing the pure value instead.
-/

/-- Blockchain.chainwork_of_header_at_height (lines 978 to 985).  Note
that the source passes a chunk index where get_target expects a height.  -/
def chainwork_of_header_at_height (c : ChainModel) (height : Int) : Except String Int :=
  let chunk_idx := Int.fdiv height 2016 - 1
  (get_target c chunk_idx none).map fun target =>
    Int.fdiv ((2 : Int) ^ 256 - (target : Int) - 1) ((target : Int) + 1) + 1

/-- The descending cache-lookup loop of get_chainwork (lines 997 to
1000), fuelled with more steps than the loop can take. -/
def descendAux (net : Net) (sha256d : List Nat → List Nat) (c : ChainModel)
    (cache : List Nat → Option Int) : Nat → Int → Except String Int
  | 0, ch => .ok ch
  | f + 1, ch => do
    let h ← get_hash net sha256d c ch
    if (cache h).isSome then .ok ch
    else if ch ≤ -1 then .ok ch
    else descendAux net sha256d c cache f (ch - 2016)

/-- The ascending accumulation loop of get_chainwork (lines 1003 to
1008), run for the exact number of steps of the while loop. -/
def ascendAux (c : ChainModel) : Nat → Int → Int → Except String (Int × Int)
  | 0, ch, running => .ok (ch, running)
  | f + 1, ch, running => do
    let w ← chainwork_of_header_at_height c (ch + 2016)
    ascendAux c f (ch + 2016) (running + 2016 * w)

/-- Blockchain.get_chainwork (lines 987 to 1012) with an explicit
height argument. -/
def get_chainwork (net : Net) (sha256d : List Nat → List Nat) (c : ChainModel)
    (cache : List Nat → Option Int) (height : Int) : Except String Int :=
  if net.TESTNET then .ok height
  else
    let last_retarget := Int.fdiv height 2016 * 2016 - 1
    do
    let ch ← descendAux net sha256d c cache
      ((last_retarget + 2016).toNat / 2016 + 2) last_retarget
    if ch < -1 then .error "assert cached_height greater or equal -1 failed"
    else do
      let baseh ← get_hash net sha256d c ch
      match cache baseh with
      | none => .error "chainwork cache lookup failed"
      | some base => do
        let steps := (last_retarget - ch).toNat / 2016
        let res ← ascendAux c steps ch base
        let w ← chainwork_of_header_at_height c (res.1 + 2016)
        .ok (res.2 + (Int.emod height 2016 + 1) * w)

/-! ### Fork swap (blockchain.py lines 573 to 623)

The registry of chains is a map from chain ids (the forkpoint hash) to
chain records; a record carries the swappable fields and the backing
file bytes.  The chainwork comparison is an oracle parameter: the claim
about the ASERT-era guard quantifies over every possible outcome of the
comparison.
-/

/-- The mutable per-chain state touched by _swap_with_parent. -/
structure SwapChain where
  forkpoint : Int
  parent : Option (List Nat)
  forkpoint_hash : List Nat
  prev_hash : Option (List Nat)
  file : List Nat

/-- Blockchain.size (lines 410 to 417): the file length in whole
headers. -/
def SwapChain.size (sc : SwapChain) : Int := (sc.file.length / HEADER_SIZE : Nat)

/-- Blockchain.height (lines 406 to 408). -/
def SwapChain.height (sc : SwapChain) : Int := sc.forkpoint + SwapChain.size sc - 1

/-- The registry of chains (the blockchains dict). -/
structure World where
  chains : List Nat → Option SwapChain

/-- Blockchain.write (lines 636 to 648) on the byte content: optional
truncation at the offset, then an in-place overwrite (zero padding if
the offset lies past the end of the file). -/
def writeData (file data : List Nat) (offset : Nat) (truncate : Bool) : List Nat :=
  let tsize := (file.length / HEADER_SIZE) * HEADER_SIZE
  let f1 := if truncate ∧ offset ≠ tsize then file.take offset else file
  f1.take offset ++ List.replicate (offset - f1.length) 0 ++ data ++
    f1.drop (offset + data.length)

/-- Blockchain._swap_with_parent (lines 573 to 623): returns whether a
swap happened together with the updated registry.  Chain lookups that
cannot fail in the source (the parent reference is always registered)
conservatively return False without a change. -/
def _swap_with_parent (sha256d : List Nat → List Nat) (cw : List Nat → Int)
    (w : World) (selfId : List Nat) : Bool × World :=
  match w.chains selfId with
  | none => (false, w)
  | some self =>
    match self.parent with
    | none => (false, w)
    | some parentId =>
      if ASERT_HEIGHT ≤ SwapChain.height self then (false, w)
      else
        match w.chains parentId with
        | none => (false, w)
        | some parent =>
          if cw selfId ≤ cw parentId then (false, w)
          else
            let parent_branch_size := SwapChain.height parent - self.forkpoint + 1
            let delta := (self.forkpoint - parent.forkpoint).toNat * HEADER_SIZE
            let my_data := self.file
            let parent_data :=
              (parent.file.drop delta).take (parent_branch_size.toNat * HEADER_SIZE)
            let newSelf : SwapChain :=
              { forkpoint := parent.forkpoint
                parent := parent.parent
                forkpoint_hash := parent.forkpoint_hash
                prev_hash := parent.prev_hash
                file := writeData self.file parent_data 0 true }
            let newParent : SwapChain :=
              { forkpoint := self.forkpoint
                parent := some parent.forkpoint_hash
                forkpoint_hash :=
                  hash_raw_header sha256d (bytesToNibbles (parent_data.take HEADER_SIZE))
                prev_hash := self.prev_hash
                file := writeData parent.file my_data delta true }
            (true,
              ⟨fun id =>
                if id = newSelf.forkpoint_hash then some newSelf
                else if id = newParent.forkpoint_hash then some newParent
                else if id = selfId ∨ id = parentId then none
                else w.chains id⟩)

/-! ### Concrete fixtures for the claim instances -/

/-- The all-zero 64-character hex string. -/
def zeros64 : List Nat := List.replicate 64 0

/-- An anchor header with the anchor bits 0x1e0fffff and timestamp 0. -/
def c3AnchorHeader : Header :=
  { version := 1, prev_block_hash := some zeros64, merkle_root := zeros64,
    timestamp := 0, bits := 0x1e0fffff, nonce := 0, block_height := 2999999 }

/-- A previous header one half-life late relative to the schedule at
height 3000000: 123 seconds of schedule plus 7200 seconds. -/
def c3PrevHeader : Header :=
  { version := 1, prev_block_hash := some zeros64, merkle_root := zeros64,
    timestamp := 7323, bits := 0x1e0fffff, nonce := 0, block_height := 2999999 }

/-- A chain holding only the anchor header. -/
def c3Chain : ChainModel := ⟨fun i => if i = 2999999 then some c3AnchorHeader else none⟩

/-- A DGW-era header with given timestamp and the maximal target bits. -/
def c4Header (ts : Int) : Header :=
  { version := 1, prev_block_hash := some zeros64, merkle_root := zeros64,
    timestamp := ts, bits := 0x1e0fffff, nonce := 0, block_height := 0 }

/-- A chain with 24 identical-bits headers at heights 126076 to 126099,
spaced at exactly POW_TARGET_SPACING seconds. -/
def c4Chain : ChainModel :=
  ⟨fun i => if 126076 ≤ i ∧ i ≤ 126099 then some (c4Header (1000000 + 123 * (i - 126076)))
    else none⟩

/-- The empty pending-chunk window, as built by get_target when it is
given no chunk headers. -/
def chunkEmpty : ChunkHeaders := ⟨true, 0, 0, fun _ => none⟩

/-- A mainnet parameter fixture for concrete evaluations: testnet flag
off, all-zero genesis id, no checkpoints. -/
def mainNet : Net := ⟨false, List.replicate 64 0, -1, fun _ => []⟩

/-- A height-1 header whose bits field encodes the small target 0x8000,
used to evaluate verify_header concretely. -/
def c1Header : Header :=
  { version := 1, prev_block_hash := some (List.replicate 64 0),
    merkle_root := List.replicate 64 0, timestamp := 0,
    bits := 0x03008000, nonce := 0, block_height := 1 }


/-- A height-0 header carrying no previous hash, for evaluating
hash_header and get_hash concretely. -/
def c9Header : Header :=
  { version := 1, prev_block_hash := none,
    merkle_root := List.replicate 64 0, timestamp := 0,
    bits := 0x1e0fffff, nonce := 0, block_height := 0 }

/-- A chain with no stored headers. -/
def emptyChain : ChainModel := ⟨fun _ => none⟩


/-- A one-header chain forked at height 3000000, inside the ASERT era. -/
def c8Chain : SwapChain :=
  { forkpoint := 3000000, parent := some (List.replicate 64 0),
    forkpoint_hash := [1], prev_hash := none,
    file := List.replicate 80 0 }

/-- A registry holding just the ASERT-era chain under id [1]. -/
def c8World : World := ⟨fun id => if id = [1] then some c8Chain else none⟩


/-- A chainwork cache holding only the sentinel entry: value 0 at the
all-zero hash. -/
def c7Cache : List Nat → Option Int :=
  fun s => if s = List.replicate 64 0 then some 0 else none


/-! ### Facts about the hex-digit machinery -/

theorem toNibblesAux_congr : ∀ (f g n : Nat), n ≤ f → n ≤ g →
    toNibblesAux f n = toNibblesAux g n := by
  intro f
  induction f with
  | zero =>
    intro g n hf _
    interval_cases n
    cases g <;> simp [toNibblesAux]
  | succ f ih =>
    intro g n hf hg
    by_cases hn : n < 16
    · cases g with
      | zero =>
        interval_cases n
        simp [toNibblesAux]
      | succ g => simp [toNibblesAux, hn]
    · push_neg at hn
      have hg1 : 1 ≤ g := by omega
      obtain ⟨g, rfl⟩ : ∃ g', g = g' + 1 := ⟨g - 1, by omega⟩
      have hd : n / 16 < n := Nat.div_lt_self (by omega) (by omega)
      simp only [toNibblesAux, if_neg (by omega : ¬ n < 16)]
      rw [ih g (n / 16) (by omega) (by omega)]

theorem toNibbles_lt {n : Nat} (h : n < 16) : toNibbles n = [n] := by
  unfold toNibbles
  cases n with
  | zero => rfl
  | succ m => simp [toNibblesAux, h]

theorem toNibbles_ge {n : Nat} (h : 16 ≤ n) :
    toNibbles n = toNibbles (n / 16) ++ [n % 16] := by
  unfold toNibbles
  obtain ⟨m, rfl⟩ : ∃ m, n = m + 1 := ⟨n - 1, by omega⟩
  have hd : (m + 1) / 16 < m + 1 := Nat.div_lt_self (by omega) (by omega)
  simp only [toNibblesAux, if_neg (by omega : ¬ m + 1 < 16)]
  rw [toNibblesAux_congr m ((m + 1) / 16) ((m + 1) / 16) (by omega) (by omega)]

theorem nibblesToNat_go : ∀ (l : List Nat) (a : Nat),
    l.foldl (fun a d => a * 16 + d) a = a * 16 ^ l.length + nibblesToNat l := by
  intro l
  induction l with
  | nil => intro a; simp [nibblesToNat]
  | cons d t ih =>
    intro a
    have h1 := ih (a * 16 + d)
    have h2 := ih d
    simp only [List.foldl_cons, List.length_cons]
    rw [h1]
    have h3 : nibblesToNat (d :: t) = d * 16 ^ t.length + nibblesToNat t := by
      simpa [nibblesToNat] using h2
    rw [h3]
    ring

theorem nibblesToNat_append (l₁ l₂ : List Nat) :
    nibblesToNat (l₁ ++ l₂) = nibblesToNat l₁ * 16 ^ l₂.length + nibblesToNat l₂ := by
  unfold nibblesToNat
  rw [List.foldl_append]
  exact nibblesToNat_go l₂ _

theorem nibblesToNat_cons_zero (l : List Nat) : nibblesToNat (0 :: l) = nibblesToNat l := rfl

theorem nibblesToNat_toNibbles (n : Nat) : nibblesToNat (toNibbles n) = n := by
  induction n using Nat.strong_induction_on with
  | _ n ih =>
    by_cases h : n < 16
    · rw [toNibbles_lt h]
      simp [nibblesToNat]
    · push_neg at h
      rw [toNibbles_ge h, nibblesToNat_append]
      have := ih (n / 16) (Nat.div_lt_self (by omega) (by omega))
      simp only [this, List.length_cons, List.length_nil]
      have : nibblesToNat [n % 16] = n % 16 := by simp [nibblesToNat]
      rw [this]
      omega

theorem toNibbles_mul_pow {n : Nat} (hn : 1 ≤ n) (k : Nat) :
    toNibbles (n * 16 ^ k) = toNibbles n ++ List.replicate k 0 := by
  induction k with
  | zero => simp
  | succ k ih =>
    have h16 : 16 ≤ n * 16 ^ (k + 1) := by
      calc 16 = 1 * 16 ^ 1 := by norm_num
      _ ≤ n * 16 ^ (k + 1) := by
        apply Nat.mul_le_mul hn
        exact Nat.pow_le_pow_right (by omega) (by omega)
    rw [toNibbles_ge h16]
    have hdiv : n * 16 ^ (k + 1) / 16 = n * 16 ^ k := by
      rw [pow_succ, ← Nat.mul_assoc]
      exact Nat.mul_div_cancel _ (by omega)
    have hmod : n * 16 ^ (k + 1) % 16 = 0 := by
      rw [pow_succ, ← Nat.mul_assoc]
      exact Nat.mul_mod_left _ 16
    rw [hdiv, hmod, ih, List.append_assoc]
    congr 1
    rw [← List.replicate_succ' (n := k)]

theorem toNibbles_length_head : ∀ (j n : Nat), 16 ^ j ≤ n → n < 16 ^ (j + 1) →
    (toNibbles n).length = j + 1 ∧ (toNibbles n).headI ≠ 0 := by
  intro j
  induction j with
  | zero =>
    intro n h1 h2
    norm_num at h1 h2
    rw [toNibbles_lt h2]
    simp
    omega
  | succ j ih =>
    intro n h1 h2
    have h16 : 16 ≤ n := le_trans (by calc 16 = 16 ^ 1 := by norm_num
                                         _ ≤ 16 ^ (j + 1) := Nat.pow_le_pow_right (by omega) (by omega)) h1
    rw [toNibbles_ge h16]
    have hlow : 16 ^ j ≤ n / 16 := by
      rw [Nat.le_div_iff_mul_le (by omega)]
      calc 16 ^ j * 16 = 16 ^ (j + 1) := by rw [pow_succ]
      _ ≤ n := h1
    have hhigh : n / 16 < 16 ^ (j + 1) := by
      rw [Nat.div_lt_iff_lt_mul (by omega)]
      calc n < 16 ^ (j + 1 + 1) := h2
      _ = 16 ^ (j + 1) * 16 := by rw [pow_succ]
    obtain ⟨hlen, hhead⟩ := ih (n / 16) hlow hhigh
    constructor
    · simp [hlen]
    · obtain ⟨d, t, ht⟩ : ∃ d t, toNibbles (n / 16) = d :: t := by
        cases hc : toNibbles (n / 16) with
        | nil => rw [hc] at hlen; simp at hlen
        | cons d t => exact ⟨d, t, rfl⟩
      rw [ht]
      rw [ht] at hhead
      simpa using hhead

/-! ### Facts about the stripping loop of target_to_bits -/

theorem stripCAux_congr : ∀ (f g : Nat) (c : List Nat), c.length ≤ f → c.length ≤ g →
    stripCAux f c = stripCAux g c := by
  intro f
  induction f with
  | zero =>
    intro g c hf _
    have : c = [] := List.eq_nil_of_length_eq_zero (by omega)
    subst this
    cases g <;> simp [stripCAux]
  | succ f ih =>
    intro g c hf hg
    by_cases hcond : 6 < c.length ∧ c.take 2 = [0, 0]
    · obtain ⟨g, rfl⟩ : ∃ g', g = g' + 1 := ⟨g - 1, by omega⟩
      simp only [stripCAux, if_pos hcond]
      exact ih g (c.drop 2) (by simp; omega) (by simp; omega)
    · cases g with
      | zero =>
        have : c = [] := List.eq_nil_of_length_eq_zero (by omega)
        subst this
        simp [stripCAux]
      | succ g => simp only [stripCAux, if_neg hcond]

theorem strip_stop {c : List Nat} (h : ¬ (6 < c.length ∧ c.take 2 = [0, 0])) :
    stripC c = c := by
  unfold stripC
  cases hl : c.length with
  | zero =>
    have : c = [] := List.eq_nil_of_length_eq_zero hl
    subst this; rfl
  | succ m => simp only [stripCAux, if_neg h]

theorem strip_step {c : List Nat} (h₁ : 6 < c.length) (h₂ : c.take 2 = [0, 0]) :
    stripC c = stripC (c.drop 2) := by
  unfold stripC
  have hex : ∃ m, c.length = m + 1 := ⟨c.length - 1, by omega⟩
  obtain ⟨m, hm⟩ := hex
  rw [hm]
  simp only [stripCAux]
  rw [if_pos (show 6 < c.length ∧ c.take 2 = [0, 0] from ⟨h₁, h₂⟩)]
  exact stripCAux_congr m (c.drop 2).length (c.drop 2) (by simp; omega) (le_refl _)

theorem strip_zeros_even : ∀ (z : Nat) (l : List Nat), 6 ≤ l.length → l.headI ≠ 0 →
    stripC (List.replicate (2 * z) 0 ++ l) = l := by
  intro z
  induction z with
  | zero =>
    intro l hl hh
    simp only [Nat.mul_zero, List.replicate_zero, List.nil_append]
    apply strip_stop
    obtain ⟨a, b, t, ht⟩ : ∃ a b t, l = a :: b :: t := by
      match l, hl with
      | a :: b :: t, _ => exact ⟨a, b, t, rfl⟩
    subst ht
    simp only [List.headI] at hh
    intro hcontra
    have htake := hcontra.2
    have h2 : List.take 2 (a :: b :: t) = [a, b] := rfl
    rw [h2] at htake
    injection htake with ha _
    exact hh ha
  | succ z ih =>
    intro l hl hh
    have hrep : List.replicate (2 * (z + 1)) 0 = 0 :: 0 :: List.replicate (2 * z) (0 : Nat) := by
      have : 2 * (z + 1) = (2 * z) + 1 + 1 := by ring
      rw [this, List.replicate_succ, List.replicate_succ]
    rw [hrep]
    rw [strip_step (by simp only [List.cons_append, List.length_cons, List.length_append,
      List.length_replicate]; omega) (by simp)]
    simpa using ih l hl hh

theorem strip_zeros_odd : ∀ (z : Nat) (l : List Nat), 5 ≤ l.length → l.headI ≠ 0 →
    stripC (List.replicate (2 * z + 1) 0 ++ l) = 0 :: l := by
  intro z
  induction z with
  | zero =>
    intro l hl hh
    simp only [Nat.mul_zero, Nat.zero_add, List.replicate_succ, List.replicate_zero,
      List.nil_append, List.cons_append]
    apply strip_stop
    obtain ⟨a, t, ht⟩ : ∃ a t, l = a :: t := by
      match l, hl with
      | a :: t, _ => exact ⟨a, t, rfl⟩
    subst ht
    simp only [List.headI] at hh
    intro hcontra
    have htake := hcontra.2
    have h2 : List.take 2 (0 :: a :: t) = [0, a] := rfl
    rw [h2] at htake
    injection htake with _ h3
    injection h3 with ha _
    exact hh ha
  | succ z ih =>
    intro l hl hh
    have hrep : List.replicate (2 * (z + 1) + 1) 0 = 0 :: 0 :: List.replicate (2 * z + 1) (0 : Nat) := by
      have : 2 * (z + 1) + 1 = (2 * z + 1) + 1 + 1 := by ring
      rw [this, List.replicate_succ, List.replicate_succ]
    rw [hrep]
    rw [strip_step (by simp only [List.cons_append, List.length_cons, List.length_append,
      List.length_replicate]; omega) (by simp)]
    simpa using ih l hl hh

theorem strip_zeros_four : ∀ (z : Nat) (l : List Nat), l.length = 4 →
    stripC (List.replicate (2 * z + 2) 0 ++ l) = 0 :: 0 :: l := by
  intro z
  induction z with
  | zero =>
    intro l hl
    have hrep : List.replicate 2 (0 : Nat) = [0, 0] := rfl
    simp only [Nat.mul_zero, Nat.zero_add, hrep]
    apply strip_stop
    simp [hl]
  | succ z ih =>
    intro l hl
    have hrep : List.replicate (2 * (z + 1) + 2) 0 = 0 :: 0 :: List.replicate (2 * z + 2) (0 : Nat) := by
      have : 2 * (z + 1) + 2 = (2 * z + 2) + 1 + 1 := by ring
      rw [this, List.replicate_succ, List.replicate_succ]
    rw [hrep]
    rw [strip_step (by simp only [List.cons_append, List.length_cons, List.length_append,
      List.length_replicate, hl]; omega) (by simp)]
    simpa using ih l hl

theorem headI_append {l r : List Nat} (hne : l ≠ []) : (l ++ r).headI = l.headI := by
  cases l with
  | nil => contradiction
  | cons a t => rfl

theorem drop_two_replicate (a : Nat) (l : List Nat) (h : 2 ≤ a) :
    (List.replicate a (0 : Nat) ++ l).drop 2 = List.replicate (a - 2) 0 ++ l := by
  obtain ⟨b, rfl⟩ : ∃ b, a = b + 2 := ⟨a - 2, by omega⟩
  have hrep : List.replicate (b + 2) (0 : Nat) = 0 :: 0 :: List.replicate b 0 := by
    rw [show b + 2 = (b + 1) + 1 from rfl, List.replicate_succ, List.replicate_succ]
  rw [hrep]
  simp

/-- On a target in classic compact normal form, target_to_bits recovers
the exponent and the mantissa. -/
theorem target_to_bits_normal (ep m : Nat) (hep : ep ≤ 27)
    (hm1 : 0x8000 ≤ m) (hm2 : m ≤ 0x7fffff) :
    target_to_bits (m * 256 ^ ep) = ((3 + ep) <<< 24) ||| m := by
  have h256 : m * 256 ^ ep = m * 16 ^ (2 * ep) := by
    rw [show (256 : Nat) = 16 ^ 2 by norm_num, ← pow_mul]
  have hm0 : 1 ≤ m := by omega
  have htN : toNibbles (m * 256 ^ ep) = toNibbles m ++ List.replicate (2 * ep) 0 := by
    rw [h256]; exact toNibbles_mul_pow hm0 (2 * ep)
  have hmne : toNibbles m ≠ [] := by
    intro hc
    have := nibblesToNat_toNibbles m
    rw [hc] at this
    simp [nibblesToNat] at this
    omega
  rcases Nat.lt_or_ge m 0x10000 with h4 | h45
  · -- mantissa has 4 hex digits
    obtain ⟨hlen, hhead⟩ := toNibbles_length_head 3 m (by norm_num; omega) (by norm_num; omega)
    unfold target_to_bits padHex
    rw [htN]
    have hlenT : (toNibbles m ++ List.replicate (2 * ep) 0).length = 4 + 2 * ep := by
      simp [hlen]
    rw [hlenT]
    dsimp only
    rw [drop_two_replicate _ _ (by omega)]
    have hsub : 64 - (4 + 2 * ep) - 2 = 58 - 2 * ep := by omega
    rw [hsub]
    rcases Nat.eq_zero_or_pos ep with hep0 | hep1
    · subst hep0
      have h58 : 58 - 2 * 0 = 2 * 28 + 2 := by norm_num
      rw [h58]
      simp only [Nat.mul_zero, List.replicate_zero, List.append_nil]
      rw [strip_zeros_four 28 (toNibbles m) hlen]
      have hctake : (0 :: 0 :: toNibbles m).take 6 = 0 :: 0 :: toNibbles m :=
        List.take_of_length_le (by simp [hlen])
      rw [hctake]
      have hcval : nibblesToNat (0 :: 0 :: toNibbles m) = m := by
        rw [nibblesToNat_cons_zero, nibblesToNat_cons_zero, nibblesToNat_toNibbles]
      rw [hcval]
      rw [if_neg (by omega : ¬ 0x800000 ≤ m)]
      have hclen : (0 :: 0 :: toNibbles m).length = 6 := by simp [hlen]
      rw [hclen]
    · have h58 : 58 - 2 * ep = 2 * (29 - ep) := by omega
      rw [h58]
      rw [strip_zeros_even (29 - ep) _ (by simp [hlen]; omega)
        (by rw [headI_append hmne]; exact hhead)]
      have hclen : (toNibbles m ++ List.replicate (2 * ep) 0).length = 4 + 2 * ep := by
        simp [hlen]
      rw [hclen]
      have hdiv2 : (4 + 2 * ep) / 2 = 2 + ep := by omega
      rw [hdiv2]
      rw [List.take_append_eq_append_take, List.take_of_length_le (by simp [hlen]),
        hlen, List.take_replicate]
      have hmin : min (6 - 4) (2 * ep) = 2 := by omega
      rw [hmin]
      have hrep2 : List.replicate 2 (0 : Nat) = [0, 0] := rfl
      rw [hrep2, nibblesToNat_append]
      have hval : nibblesToNat [0, 0] = 0 := rfl
      rw [hval, nibblesToNat_toNibbles]
      have hbase : m * 16 ^ ([0, 0] : List Nat).length + 0 = 256 * m := by
        simp; ring
      rw [hbase]
      rw [if_pos (by omega : 0x800000 ≤ 256 * m)]
      have hshift : (256 * m) >>> 8 = m := by
        rw [Nat.shiftRight_eq_div_pow]
        rw [show (2 : Nat) ^ 8 = 256 from by norm_num]
        exact Nat.mul_div_cancel_left m (by norm_num)
      rw [hshift]
      have : 2 + ep + 1 = 3 + ep := by omega
      rw [this]
  · rcases Nat.lt_or_ge m 0x100000 with h5 | h56
    · -- mantissa has 5 hex digits
      obtain ⟨hlen, hhead⟩ := toNibbles_length_head 4 m (by norm_num; omega) (by norm_num; omega)
      unfold target_to_bits padHex
      rw [htN]
      have hlenT : (toNibbles m ++ List.replicate (2 * ep) 0).length = 5 + 2 * ep := by
        simp [hlen]
      rw [hlenT]
      dsimp only
      rw [drop_two_replicate _ _ (by omega)]
      have hsub : 64 - (5 + 2 * ep) - 2 = 2 * (28 - ep) + 1 := by omega
      rw [hsub]
      rw [strip_zeros_odd (28 - ep) _ (by simp [hlen])
        (by rw [headI_append hmne]; exact hhead)]
      have hclen : (0 :: (toNibbles m ++ List.replicate (2 * ep) 0)).length = 6 + 2 * ep := by
        simp [hlen]
        omega
      rw [hclen]
      have hdiv2 : (6 + 2 * ep) / 2 = 3 + ep := by omega
      rw [hdiv2]
      rw [List.take_succ_cons, List.take_append_eq_append_take,
        List.take_of_length_le (by simp [hlen]), hlen, List.take_replicate]
      have hmin : min (5 - 5) (2 * ep) = 0 := by omega
      rw [hmin]
      simp only [List.replicate_zero, List.append_nil]
      rw [nibblesToNat_cons_zero, nibblesToNat_toNibbles]
      rw [if_neg (by omega : ¬ 0x800000 ≤ m)]
    · -- mantissa has 6 hex digits
      obtain ⟨hlen, hhead⟩ := toNibbles_length_head 5 m (by norm_num; omega) (by norm_num; omega)
      unfold target_to_bits padHex
      rw [htN]
      have hlenT : (toNibbles m ++ List.replicate (2 * ep) 0).length = 6 + 2 * ep := by
        simp [hlen]
      rw [hlenT]
      dsimp only
      rw [drop_two_replicate _ _ (by omega)]
      have hsub : 64 - (6 + 2 * ep) - 2 = 2 * (28 - ep) := by omega
      rw [hsub]
      rw [strip_zeros_even (28 - ep) _ (by simp [hlen])
        (by rw [headI_append hmne]; exact hhead)]
      have hclen : (toNibbles m ++ List.replicate (2 * ep) 0).length = 6 + 2 * ep := by
        simp [hlen]
      rw [hclen]
      have hdiv2 : (6 + 2 * ep) / 2 = 3 + ep := by omega
      rw [hdiv2]
      rw [List.take_append_eq_append_take, List.take_of_length_le (by simp [hlen]),
        hlen, List.take_replicate]
      have hmin : min (6 - 6) (2 * ep) = 0 := by omega
      rw [hmin]
      simp only [List.replicate_zero, List.append_nil]
      rw [nibblesToNat_toNibbles]
      rw [if_neg (by omega : ¬ 0x800000 ≤ m)]

/-- Decoding a packed compact word with exponent 3 + ep and in-window
mantissa recovers the target. -/
theorem bits_to_target_pack (ep m : Nat) (hep : ep ≤ 27)
    (hm1 : 0x8000 ≤ m) (hm2 : m ≤ 0x7fffff) :
    bits_to_target (((3 + ep) <<< 24) ||| m) = .ok (m * 256 ^ ep) := by
  have hlt : m < 2 ^ 24 := by norm_num; omega
  have hpack : ((3 + ep) <<< 24) ||| m = 2 ^ 24 * (3 + ep) + m := by
    rw [Nat.shiftLeft_eq, Nat.mul_comm]
    exact (Nat.mul_add_lt_is_or hlt _).symm
  rw [hpack]
  unfold bits_to_target
  have hdiv : (2 ^ 24 * (3 + ep) + m) >>> 24 = 3 + ep := by
    rw [Nat.shiftRight_eq_div_pow, Nat.mul_add_div (by norm_num), Nat.div_eq_of_lt hlt]
    omega
  rw [hdiv]
  have hand1 : (3 + ep) &&& 0xff = 3 + ep := by
    have h := Nat.and_pow_two_sub_one_eq_mod (3 + ep) 8
    norm_num at h
    rw [h]
    omega
  rw [hand1]
  rw [if_neg (not_not_intro ⟨by omega, by omega⟩)]
  have hand2 : (2 ^ 24 * (3 + ep) + m) &&& 0xffffff = m := by
    have h := Nat.and_pow_two_sub_one_eq_mod (2 ^ 24 * (3 + ep) + m) 24
    norm_num at h ⊢
    rw [h, Nat.mul_add_mod, Nat.mod_eq_of_lt (by omega)]
  rw [hand2]
  rw [if_neg (not_not_intro ⟨by omega, by omega⟩)]
  have hsub : 3 + ep - 3 = ep := by omega
  rw [hsub]
  congr 1
  rw [Nat.shiftLeft_eq]
  congr 1
  rw [show (2 : Nat) ^ (8 * ep) = (2 ^ 8) ^ ep from by rw [← pow_mul]]
  norm_num

/-- C2: for every valid target, one expressible with an exponent in the
window 0x03 to 0x1e and a mantissa in the window 0x8000 to 0x7fffff,
decoding the classic compact encoding recovers the target exactly:
bits_to_target (target_to_bits t) = t. -/
theorem C2_classic_compact_roundtrip (t e m : Nat) (he3 : 3 ≤ e) (heN : e ≤ 0x1e)
    (hm1 : 0x8000 ≤ m) (hm2 : m ≤ 0x7fffff) (ht : t = m * 256 ^ (e - 3)) :
    bits_to_target (target_to_bits t) = .ok t := by
  subst ht
  have hep : e - 3 ≤ 27 := by omega
  rw [target_to_bits_normal (e - 3) m hep hm1 hm2]
  exact bits_to_target_pack (e - 3) m hep hm1 hm2

/-- Witness for C2 at the maximal target of the network. -/
theorem C2_classic_compact_roundtrip_witness :
    bits_to_target (target_to_bits (0xfffff * 2 ^ 216)) = .ok (0xfffff * 2 ^ 216) :=
  C2_classic_compact_roundtrip (0xfffff * 2 ^ 216) 0x1e 0xfffff (by norm_num) (by norm_num)
    (by norm_num) (by norm_num) (by norm_num)

/-! ### Facts about the byte machinery and the OurBigNum encoder -/

theorem natBytesAux_congr : ∀ (f g n : Nat), n ≤ f → n ≤ g →
    natBytesAux f n = natBytesAux g n := by
  intro f
  induction f with
  | zero =>
    intro g n hf _
    interval_cases n
    cases g <;> simp [natBytesAux]
  | succ f ih =>
    intro g n hf hg
    by_cases hn : n < 256
    · cases g with
      | zero =>
        interval_cases n
        simp [natBytesAux]
      | succ g => simp [natBytesAux, hn]
    · push_neg at hn
      obtain ⟨g, rfl⟩ : ∃ gp, g = gp + 1 := ⟨g - 1, by omega⟩
      have hd : n / 256 < n := Nat.div_lt_self (by omega) (by omega)
      simp only [natBytesAux, if_neg (by omega : ¬ n < 256)]
      rw [ih g (n / 256) (by omega) (by omega)]

theorem natBytes_lt {n : Nat} (h : n < 256) : natBytes n = [n] := by
  unfold natBytes
  cases n with
  | zero => rfl
  | succ m => simp [natBytesAux, h]

theorem natBytes_ge {n : Nat} (h : 256 ≤ n) :
    natBytes n = natBytes (n / 256) ++ [n % 256] := by
  unfold natBytes
  obtain ⟨m, rfl⟩ : ∃ m, n = m + 1 := ⟨n - 1, by omega⟩
  have hd : (m + 1) / 256 < m + 1 := Nat.div_lt_self (by omega) (by omega)
  simp only [natBytesAux, if_neg (by omega : ¬ m + 1 < 256)]
  rw [natBytesAux_congr m ((m + 1) / 256) ((m + 1) / 256) (by omega) (by omega)]

theorem toNibbles_two_step {n : Nat} (h : 256 ≤ n) :
    toNibbles n = toNibbles (n / 256) ++ [n / 16 % 16, n % 16] := by
  rw [toNibbles_ge (by omega : 16 ≤ n), toNibbles_ge (by omega : 16 ≤ n / 16)]
  rw [Nat.div_div_eq_div_mul]
  norm_num [List.append_assoc]

theorem set_hex_toNibbles (n : Nat) : set_hex (toNibbles n) = natBytes n := by
  induction n using Nat.strong_induction_on with
  | _ n ih =>
    by_cases h16 : n < 16
    · rw [toNibbles_lt h16, natBytes_lt (by omega)]
      rfl
    · push_neg at h16
      by_cases h256 : n < 256
      · rw [toNibbles_ge h16, toNibbles_lt (by omega : n / 16 < 16), natBytes_lt h256]
        unfold set_hex
        simp only [List.reverse_append, List.reverse_cons, List.reverse_nil,
          List.nil_append, List.cons_append, List.singleton_append]
        show ([(n / 16) * 16 + n % 16] : List Nat).reverse = [n]
        simp
        omega
      · push_neg at h256
        rw [toNibbles_two_step h256, natBytes_ge h256]
        unfold set_hex
        rw [List.reverse_append]
        show (pairUpRev (n % 16 :: n / 16 % 16 :: (toNibbles (n / 256)).reverse)).reverse =
          natBytes (n / 256) ++ [n % 256]
        rw [show pairUpRev (n % 16 :: n / 16 % 16 :: (toNibbles (n / 256)).reverse) =
          ((n / 16 % 16) * 16 + n % 16) :: pairUpRev (toNibbles (n / 256)).reverse from rfl]
        rw [List.reverse_cons]
        have hrec := ih (n / 256) (Nat.div_lt_self (by omega) (by omega))
        unfold set_hex at hrec
        rw [hrec]
        have key : n / 16 % 16 * 16 + n % 16 = n % 256 := by
          have h := Nat.mod_mul (a := 16) (b := 16) (x := n)
          norm_num at h
          omega
        rw [key]

theorem natBytes_mul_pow {n : Nat} (hn : 1 ≤ n) (k : Nat) :
    natBytes (n * 256 ^ k) = natBytes n ++ List.replicate k 0 := by
  induction k with
  | zero => simp
  | succ k ih =>
    have h256 : 256 ≤ n * 256 ^ (k + 1) := by
      calc 256 = 1 * 256 ^ 1 := by norm_num
      _ ≤ n * 256 ^ (k + 1) := by
        apply Nat.mul_le_mul hn
        exact Nat.pow_le_pow_right (by omega) (by omega)
    rw [natBytes_ge h256]
    have hdiv : n * 256 ^ (k + 1) / 256 = n * 256 ^ k := by
      rw [pow_succ, ← Nat.mul_assoc]
      exact Nat.mul_div_cancel _ (by omega)
    have hmod : n * 256 ^ (k + 1) % 256 = 0 := by
      rw [pow_succ, ← Nat.mul_assoc]
      exact Nat.mul_mod_left _ 256
    rw [hdiv, hmod, ih, List.append_assoc]
    congr 1
    rw [← List.replicate_succ' (n := k)]

theorem toNibbles_ne_nil (n : Nat) : toNibbles n ≠ [] := by
  by_cases h : n < 16
  · rw [toNibbles_lt h]; simp
  · push_neg at h
    rw [toNibbles_ge h]
    simp

theorem toNibbles_headI_ne {n : Nat} (h : 1 ≤ n) : (toNibbles n).headI ≠ 0 := by
  induction n using Nat.strong_induction_on with
  | _ n ih =>
    by_cases h16 : n < 16
    · rw [toNibbles_lt h16]
      simp only [List.headI]
      omega
    · push_neg at h16
      rw [toNibbles_ge h16, headI_append (toNibbles_ne_nil _)]
      exact ih (n / 16) (Nat.div_lt_self (by omega) (by omega)) (by omega)

theorem dropWhile_head_ne {l : List Nat} (hne : l ≠ []) (hh : l.headI ≠ 0) :
    l.dropWhile (· == 0) = l := by
  cases l with
  | nil => contradiction
  | cons a t =>
    simp only [List.headI] at hh
    simp [List.dropWhile_cons, hh]

theorem getD_replicate_zero (k i : Nat) : (List.replicate k (0 : Nat)).getD i 0 = 0 := by
  induction k generalizing i with
  | zero => simp [List.getD]
  | succ k ih =>
    cases i with
    | zero => simp [List.replicate_succ]
    | succ i => simpa [List.replicate_succ] using ih i

theorem and_bit7_zero {b : Nat} (h : b < 128) : b &&& 0x80 = 0 := by
  rw [show (0x80 : Nat) = 2 ^ 7 from by norm_num, Nat.and_two_pow]
  rw [Nat.testBit_lt_two_pow (by norm_num; omega)]
  rfl

theorem and_bit7_ne {b : Nat} (h1 : 128 ≤ b) (h2 : b < 256) : b &&& 0x80 ≠ 0 := by
  rw [show (0x80 : Nat) = 2 ^ 7 from by norm_num, Nat.and_two_pow]
  have hb : b.testBit 7 = true := by
    rw [Nat.testBit_to_div_mod]
    norm_num
    omega
  simp [hb]

theorem to_mpi_nopad {d : List Nat} (hd : d.dropWhile (· == 0) = d) (hne : ¬ d = [])
    (hlt : d.headI < 128) : to_mpi d = beBytes4 d.length ++ d := by
  unfold to_mpi
  rw [hd]
  rw [if_neg hne]
  simp [and_bit7_zero hlt]

theorem to_mpi_pad {d : List Nat} (hd : d.dropWhile (· == 0) = d) (hne : ¬ d = [])
    (hge : 128 ≤ d.headI) (hb : d.headI < 256) :
    to_mpi d = beBytes4 (d.length + 1) ++ 0 :: d := by
  unfold to_mpi
  rw [hd]
  rw [if_neg hne]
  simp [and_bit7_ne hge hb]

theorem and_bit23_zero {L mant : Nat} (hm : mant < 2 ^ 23) :
    (L * 2 ^ 24 + mant) &&& 0x800000 = 0 := by
  have h1 : L * 2 ^ 24 + mant = 2 ^ 23 * (2 * L) + mant := by ring
  rw [h1, show (0x800000 : Nat) = 2 ^ 23 from by norm_num, Nat.and_two_pow]
  rw [Nat.testBit_mul_pow_two_add _ hm 23]
  simp

theorem mask23_eq {L mant : Nat} (hm : mant < 2 ^ 23) :
    (L * 2 ^ 24 + mant) &&& 0x7fffff = mant := by
  have h := Nat.and_pow_two_sub_one_eq_mod (L * 2 ^ 24 + mant) 23
  rw [show (0x7fffff : Nat) = 2 ^ 23 - 1 from by norm_num, h]
  rw [show L * 2 ^ 24 + mant = 2 ^ 23 * (2 * L) + mant from by ring]
  rw [Nat.mul_add_mod]
  exact Nat.mod_eq_of_lt hm

theorem shift24_eq {L mant : Nat} (hm : mant < 2 ^ 24) :
    (L * 2 ^ 24 + mant) >>> 24 = L := by
  rw [Nat.shiftRight_eq_div_pow]
  rw [show L * 2 ^ 24 + mant = 2 ^ 24 * L + mant from by ring]
  rw [Nat.mul_add_div (by norm_num), Nat.div_eq_of_lt hm]
  omega

theorem lor_pack {a b k : Nat} (hb : b < 2 ^ k) : a <<< k ||| b = a * 2 ^ k + b := by
  rw [Nat.shiftLeft_eq, Nat.mul_comm]
  exact (Nat.mul_add_lt_is_or hb a).symm

theorem or_eq_add {k a b : Nat} (hb : b < 2 ^ k) (ha : 2 ^ k ∣ a) : a ||| b = a + b := by
  obtain ⟨c, hc⟩ := ha
  subst hc
  exact (Nat.mul_add_lt_is_or hb c).symm

theorem lor_mant (L x0 x1 x2 : Nat) (h0 : x0 < 256) (h1 : x1 < 256) (h2 : x2 < 256) :
    ((L <<< 24 ||| x0 <<< 16) ||| x1 <<< 8) ||| x2 =
      L * 2 ^ 24 + (x0 * 65536 + x1 * 256 + x2) := by
  rw [Nat.shiftLeft_eq, Nat.shiftLeft_eq, Nat.shiftLeft_eq]
  rw [or_eq_add (show x0 * 2 ^ 16 < 2 ^ 24 from by norm_num; omega) ⟨L, by ring⟩]
  rw [or_eq_add (show x1 * 2 ^ 8 < 2 ^ 16 from by norm_num; omega)
    ⟨L * 2 ^ 8 + x0, by ring⟩]
  rw [or_eq_add (show x2 < 2 ^ 8 from by norm_num; omega)
    ⟨L * 2 ^ 16 + x0 * 2 ^ 8 + x1, by ring⟩]
  norm_num
  ring

theorem getD_lt_256 {d : List Nat} (hbytes : ∀ b ∈ d, b < 256) (i : Nat) :
    d.getD i 0 < 256 := by
  by_cases hi : i < d.length
  · rw [List.getD_eq_getElem _ _ hi]
    exact hbytes _ (List.getElem_mem hi)
  · rw [List.getD_eq_default _ _ (by omega)]
    omega

theorem getD_zero_headI {d : List Nat} (hne : ¬ d = []) : d.getD 0 0 = d.headI := by
  cases d with
  | nil => exact absurd rfl hne
  | cons a t => rfl

/-- The compact word computed by get_compact on data whose leading byte
is nonzero, in range and below 0x80: length in the top byte and the
first three bytes (zero-extended) as mantissa, no sign fixup. -/
theorem get_compact_nopad {d : List Nat} (hd : d.dropWhile (· == 0) = d) (hne : ¬ d = [])
    (hh : d.headI ≠ 0) (hlt : d.headI < 128) (hbytes : ∀ b ∈ d, b < 256) :
    get_compact d = d.length * 2 ^ 24 +
      (d.getD 0 0 * 65536 + d.getD 1 0 * 256 + d.getD 2 0) := by
  unfold get_compact
  rw [to_mpi_nopad hd hne hlt]
  have hlen : (beBytes4 d.length ++ d).length - 4 = d.length := by simp [beBytes4]
  have hg4 : (beBytes4 d.length ++ d).getD 4 0 = d.getD 0 0 := by
    simp [beBytes4, List.cons_append, List.nil_append]
  have hg5 : (beBytes4 d.length ++ d).getD 5 0 = d.getD 1 0 := by
    simp [beBytes4, List.cons_append, List.nil_append]
  have hg6 : (beBytes4 d.length ++ d).getD 6 0 = d.getD 2 0 := by
    simp [beBytes4, List.cons_append, List.nil_append]
  dsimp only
  rw [hlen, hg4, hg5, hg6]
  have h1 : 1 ≤ d.length := by
    cases d with
    | nil => exact absurd rfl hne
    | cons a t => simp
  rw [if_pos h1]
  have hc2 : (if 2 ≤ d.length
      then (d.length <<< 24 ||| d.getD 0 0 <<< 16) ||| d.getD 1 0 <<< 8
      else d.length <<< 24 ||| d.getD 0 0 <<< 16) =
      (d.length <<< 24 ||| d.getD 0 0 <<< 16) ||| d.getD 1 0 <<< 8 := by
    by_cases h : 2 ≤ d.length
    · rw [if_pos h]
    · rw [if_neg h]
      have hg : d.getD 1 0 = 0 := List.getD_eq_default _ _ (by omega)
      rw [hg]
      simp
  rw [hc2]
  have hc3 : (if 3 ≤ d.length
      then ((d.length <<< 24 ||| d.getD 0 0 <<< 16) ||| d.getD 1 0 <<< 8) ||| d.getD 2 0
      else (d.length <<< 24 ||| d.getD 0 0 <<< 16) ||| d.getD 1 0 <<< 8) =
      ((d.length <<< 24 ||| d.getD 0 0 <<< 16) ||| d.getD 1 0 <<< 8) ||| d.getD 2 0 := by
    by_cases h : 3 ≤ d.length
    · rw [if_pos h]
    · rw [if_neg h]
      have hg : d.getD 2 0 = 0 := List.getD_eq_default _ _ (by omega)
      rw [hg]
      simp
  rw [hc3]
  rw [lor_mant _ _ _ _ (getD_lt_256 hbytes 0) (getD_lt_256 hbytes 1) (getD_lt_256 hbytes 2)]
  have hmant : d.getD 0 0 * 65536 + d.getD 1 0 * 256 + d.getD 2 0 < 2 ^ 23 := by
    have h0 : d.getD 0 0 < 128 := by rw [getD_zero_headI hne]; exact hlt
    have h1b := getD_lt_256 hbytes 1
    have h2b := getD_lt_256 hbytes 2
    omega
  rw [if_neg (not_not_intro (and_bit23_zero hmant))]

/-- The compact word computed by get_compact on data whose leading byte
has the top bit set: the sign-avoiding zero byte enters the mantissa and
the length grows by one; the sign fixup branch is still not taken. -/
theorem get_compact_pad {d : List Nat} (hd : d.dropWhile (· == 0) = d) (hne : ¬ d = [])
    (hge : 128 ≤ d.headI) (hb : d.headI < 256) (hbytes : ∀ b ∈ d, b < 256) :
    get_compact d = (d.length + 1) * 2 ^ 24 +
      (d.getD 0 0 * 256 + d.getD 1 0) := by
  unfold get_compact
  rw [to_mpi_pad hd hne hge hb]
  have hlen : (beBytes4 (d.length + 1) ++ 0 :: d).length - 4 = d.length + 1 := by
    simp [beBytes4]
  have hg4 : (beBytes4 (d.length + 1) ++ 0 :: d).getD 4 0 = 0 := by
    simp [beBytes4, List.cons_append, List.nil_append]
  have hg5 : (beBytes4 (d.length + 1) ++ 0 :: d).getD 5 0 = d.getD 0 0 := by
    simp [beBytes4, List.cons_append, List.nil_append]
  have hg6 : (beBytes4 (d.length + 1) ++ 0 :: d).getD 6 0 = d.getD 1 0 := by
    simp [beBytes4, List.cons_append, List.nil_append]
  dsimp only
  rw [hlen, hg4, hg5, hg6]
  rw [if_pos (by omega : 1 ≤ d.length + 1)]
  have h1 : 1 ≤ d.length := by
    cases d with
    | nil => exact absurd rfl hne
    | cons a t => simp
  rw [if_pos (by omega : 2 ≤ d.length + 1)]
  have hc3 : (if 3 ≤ d.length + 1
      then (((d.length + 1) <<< 24 ||| 0 <<< 16) ||| d.getD 0 0 <<< 8) ||| d.getD 1 0
      else ((d.length + 1) <<< 24 ||| 0 <<< 16) ||| d.getD 0 0 <<< 8) =
      (((d.length + 1) <<< 24 ||| 0 <<< 16) ||| d.getD 0 0 <<< 8) ||| d.getD 1 0 := by
    by_cases h : 3 ≤ d.length + 1
    · rw [if_pos h]
    · rw [if_neg h]
      have hg : d.getD 1 0 = 0 := List.getD_eq_default _ _ (by omega)
      rw [hg]
      simp
  rw [hc3]
  rw [lor_mant _ _ _ _ (by norm_num) (getD_lt_256 hbytes 0) (getD_lt_256 hbytes 1)]
  have hmant : 0 * 65536 + d.getD 0 0 * 256 + d.getD 1 0 < 2 ^ 23 := by
    have h1b := getD_lt_256 hbytes 0
    have h2b := getD_lt_256 hbytes 1
    omega
  rw [if_neg (not_not_intro (and_bit23_zero hmant))]
  norm_num

/-- Decoding a compact word packed as a length byte at most 31 and a
mantissa below 2^23 succeeds and shifts the mantissa to its byte
position. -/
theorem asert_decode_pack (L mant : Nat) (hL : L ≤ 31) (hm : mant < 2 ^ 23) :
    asert_bits_to_target (L * 2 ^ 24 + mant) =
      .ok (if L ≤ 3 then mant >>> (8 * (3 - L)) else mant <<< (8 * (L - 3))) := by
  unfold asert_bits_to_target
  have h32 : L * 2 ^ 24 + mant < 2 ^ 32 := by omega
  rw [if_neg (not_not_intro h32)]
  dsimp only
  rw [shift24_eq (lt_trans hm (by norm_num))]
  rw [mask23_eq hm]
  rw [if_neg (show ¬ ((if L ≤ 3 then mant >>> (8 * (3 - L)) else mant) ≠ 0 ∧
      (L * 2 ^ 24 + mant) &&& 0x800000 ≠ 0) from by
    rw [and_bit23_zero hm]
    simp)]
  rw [if_neg (show ¬ ((if L ≤ 3 then mant >>> (8 * (3 - L)) else mant) ≠ 0 ∧
      (34 < L ∨ (0xff < (if L ≤ 3 then mant >>> (8 * (3 - L)) else mant) ∧ 33 < L) ∨
       (0xffff < (if L ≤ 3 then mant >>> (8 * (3 - L)) else mant) ∧ 32 < L))) from by
    rintro ⟨-, h34 | ⟨-, h33⟩ | ⟨-, h32x⟩⟩ <;> omega)]
  by_cases h3 : L ≤ 3
  · simp [h3]
  · simp [h3]

/-- The shifted mantissa of a decoded in-range compact word equals the
original value. -/
theorem decode_shift_eq (m p k : Nat) (hp : 1 ≤ p) (hp3 : p ≤ 3) :
    (if p + k ≤ 3 then (m * 256 ^ (3 - p)) >>> (8 * (3 - (p + k)))
     else (m * 256 ^ (3 - p)) <<< (8 * (p + k - 3))) = m * 256 ^ k := by
  by_cases h : p + k ≤ 3
  · rw [if_pos h]
    rw [Nat.shiftRight_eq_div_pow]
    have e : (256 : Nat) ^ (3 - p) = 256 ^ k * 256 ^ (3 - p - k) := by
      rw [← pow_add]
      congr 1
      omega
    rw [e, ← Nat.mul_assoc]
    rw [show (2 : Nat) ^ (8 * (3 - (p + k))) = 256 ^ (3 - p - k) from by
      rw [show (256 : Nat) = 2 ^ 8 from by norm_num, ← pow_mul]
      congr 1
      omega]
    exact Nat.mul_div_cancel _ (pow_pos (by norm_num) _)
  · rw [if_neg h]
    rw [Nat.shiftLeft_eq]
    rw [Nat.mul_assoc]
    congr 1
    rw [show (2 : Nat) ^ (8 * (p + k - 3)) = 256 ^ (p + k - 3) from by
      rw [show (256 : Nat) = 2 ^ 8 from by norm_num, ← pow_mul]]
    rw [← pow_add]
    congr 1
    omega

theorem asert_encode1 (m k : Nat) (ht : Int) (h1 : 1 ≤ m) (h2 : m < 128) :
    asert_target_to_bits (m * 256 ^ k) ht = (1 + k) * 2 ^ 24 + m * 256 ^ 2 := by
  unfold asert_target_to_bits
  dsimp only
  have hn : 1 ≤ m * 256 ^ k :=
    Nat.mul_pos (by omega) (pow_pos (by norm_num) k)
  rw [dropWhile_head_ne (toNibbles_ne_nil _) (toNibbles_headI_ne hn)]
  rw [set_hex_toNibbles, natBytes_mul_pow h1 k, natBytes_lt (by omega),
    List.singleton_append]
  rw [get_compact_nopad (dropWhile_head_ne (by simp) (by simp; omega)) (by simp)
    (by simp; omega) (by simpa using h2)
    (by
      intro b hb
      simp at hb
      rcases hb with hb | hb <;> omega)]
  simp only [List.getD_cons_zero, List.getD_cons_succ, getD_replicate_zero,
    List.length_cons, List.length_replicate]
  norm_num
  ring

theorem asert_encode2 (m k : Nat) (ht : Int) (h1 : 128 ≤ m) (h2 : m < 256) :
    asert_target_to_bits (m * 256 ^ k) ht = (2 + k) * 2 ^ 24 + m * 256 ^ 1 := by
  unfold asert_target_to_bits
  dsimp only
  have hn : 1 ≤ m * 256 ^ k :=
    Nat.mul_pos (by omega) (pow_pos (by norm_num) k)
  rw [dropWhile_head_ne (toNibbles_ne_nil _) (toNibbles_headI_ne hn)]
  rw [set_hex_toNibbles, natBytes_mul_pow (by omega) k, natBytes_lt (by omega),
    List.singleton_append]
  rw [get_compact_pad (dropWhile_head_ne (by simp) (by simp; omega)) (by simp)
    (by simpa using h1) (by simpa using h2)
    (by
      intro b hb
      simp at hb
      rcases hb with hb | hb <;> omega)]
  simp only [List.getD_cons_zero, List.getD_cons_succ, getD_replicate_zero,
    List.length_cons, List.length_replicate]
  norm_num
  ring

theorem asert_encode3 (m k : Nat) (ht : Int) (h1 : 256 ≤ m) (h2 : m < 0x8000) :
    asert_target_to_bits (m * 256 ^ k) ht = (2 + k) * 2 ^ 24 + m * 256 ^ 1 := by
  unfold asert_target_to_bits
  dsimp only
  have hn : 1 ≤ m * 256 ^ k :=
    Nat.mul_pos (by omega) (pow_pos (by norm_num) k)
  have hdiv : 1 ≤ m / 256 ∧ m / 256 < 128 := by omega
  rw [dropWhile_head_ne (toNibbles_ne_nil _) (toNibbles_headI_ne hn)]
  rw [set_hex_toNibbles, natBytes_mul_pow (by omega) k, natBytes_ge h1,
    natBytes_lt (by omega), List.singleton_append, List.cons_append,
    List.singleton_append]
  rw [get_compact_nopad (dropWhile_head_ne (by simp) (by simp; omega)) (by simp)
    (by simp; omega) (by simp; omega)
    (by
      intro b hb
      simp at hb
      rcases hb with hb | hb | hb <;> omega)]
  simp only [List.getD_cons_zero, List.getD_cons_succ, getD_replicate_zero,
    List.length_cons, List.length_replicate]
  have hmant : m / 256 * 65536 + m % 256 * 256 + 0 = m * 256 ^ 1 := by
    norm_num
    omega
  rw [hmant]
  ring_nf

theorem asert_encode4 (m k : Nat) (ht : Int) (h1 : 0x8000 ≤ m) (h2 : m < 0x10000) :
    asert_target_to_bits (m * 256 ^ k) ht = (3 + k) * 2 ^ 24 + m * 256 ^ 0 := by
  unfold asert_target_to_bits
  dsimp only
  have hn : 1 ≤ m * 256 ^ k :=
    Nat.mul_pos (by omega) (pow_pos (by norm_num) k)
  rw [dropWhile_head_ne (toNibbles_ne_nil _) (toNibbles_headI_ne hn)]
  rw [set_hex_toNibbles, natBytes_mul_pow (by omega) k, natBytes_ge (by omega),
    natBytes_lt (by omega), List.singleton_append, List.cons_append,
    List.singleton_append]
  rw [get_compact_pad (dropWhile_head_ne (by simp) (by simp; omega)) (by simp)
    (by simp; omega) (by simp; omega)
    (by
      intro b hb
      simp at hb
      rcases hb with hb | hb | hb <;> omega)]
  simp only [List.getD_cons_zero, List.getD_cons_succ, getD_replicate_zero,
    List.length_cons, List.length_replicate]
  have hmant : m / 256 * 256 + m % 256 = m * 256 ^ 0 := by
    norm_num
    omega
  rw [hmant]
  ring_nf

theorem asert_encode5 (m k : Nat) (ht : Int) (h1 : 0x10000 ≤ m) (h2 : m < 0x800000) :
    asert_target_to_bits (m * 256 ^ k) ht = (3 + k) * 2 ^ 24 + m * 256 ^ 0 := by
  unfold asert_target_to_bits
  dsimp only
  have hn : 1 ≤ m * 256 ^ k :=
    Nat.mul_pos (by omega) (pow_pos (by norm_num) k)
  have hdd : m / 256 / 256 = m / 65536 := by
    rw [Nat.div_div_eq_div_mul]
  rw [dropWhile_head_ne (toNibbles_ne_nil _) (toNibbles_headI_ne hn)]
  rw [set_hex_toNibbles, natBytes_mul_pow (by omega) k, natBytes_ge (by omega),
    natBytes_ge (by omega : 256 ≤ m / 256), hdd, natBytes_lt (by omega),
    List.singleton_append, List.cons_append, List.cons_append, List.singleton_append,
    List.cons_append]
  rw [get_compact_nopad (dropWhile_head_ne (by simp) (by simp; omega)) (by simp)
    (by simp; omega) (by simp; omega)
    (by
      intro b hb
      simp at hb
      rcases hb with hb | hb | hb | hb <;> omega)]
  simp only [List.singleton_append, List.cons_append, List.nil_append,
    List.getD_cons_zero, List.getD_cons_succ, getD_replicate_zero, List.length_cons,
    List.length_replicate]
  have hsplit : m % 65536 = m % 256 + 256 * (m / 256 % 256) :=
    Nat.mod_mul (a := 256) (b := 256)
  have hmant : m / 65536 * 65536 + m / 256 % 256 * 256 + m % 256 = m * 256 ^ 0 := by
    norm_num
    omega
  rw [hmant]
  ring_nf

/-- C5 counterexample: n = 0x01000001 is a nonnegative integer
representable in 4 encoded bytes (well within 34), yet the decoder
applied to its encoding returns 0x01000000: the encoder keeps only the
top three bytes, so the round trip loses the nonzero low byte. -/
theorem C5_counterexample :
    asert_bits_to_target (asert_target_to_bits 0x01000001 0) = .ok 0x01000000 ∧
    (0x01000000 : Nat) ≠ 0x01000001 := by
  constructor
  · rfl
  · decide

/-- C5 as amended: the signed-magnitude codec round-trips exactly on the
values the three-byte mantissa can carry, the naturals of the form
m * 256 ^ k with m below 2 ^ 23 and at most 31 data bytes (k at most
28); beyond that the encoder truncates low bytes or the decoder rejects
the 33- and 34-byte sizes with a large mantissa. -/
theorem C5_signed_magnitude_roundtrip (m k : Nat) (ht : Int)
    (hm : m < 0x800000) (hk : k ≤ 28) :
    asert_bits_to_target (asert_target_to_bits (m * 256 ^ k) ht) =
      .ok (m * 256 ^ k) := by
  rcases Nat.eq_zero_or_pos m with rfl | h1
  · have hz : (0 : Nat) * 256 ^ k = 0 := by norm_num
    rw [hz]
    have henc : asert_target_to_bits 0 ht = 0 := rfl
    rw [henc]
    rfl
  · rcases Nat.lt_or_ge m 128 with hc | hc
    · rw [asert_encode1 m k ht h1 hc]
      rw [asert_decode_pack (1 + k) (m * 256 ^ 2) (by omega) (by norm_num; omega)]
      have hds := decode_shift_eq m 1 k (by norm_num) (by norm_num)
      simp only [show (3 : Nat) - 1 = 2 from rfl] at hds
      rw [hds]
    · rcases Nat.lt_or_ge m 0x8000 with hc2 | hc2
      · rcases Nat.lt_or_ge m 256 with hc3 | hc3
        · rw [asert_encode2 m k ht hc hc3]
          rw [asert_decode_pack (2 + k) (m * 256 ^ 1) (by omega) (by norm_num; omega)]
          have hds := decode_shift_eq m 2 k (by norm_num) (by norm_num)
          simp only [show (3 : Nat) - 2 = 1 from rfl] at hds
          rw [hds]
        · rw [asert_encode3 m k ht hc3 hc2]
          rw [asert_decode_pack (2 + k) (m * 256 ^ 1) (by omega) (by norm_num; omega)]
          have hds := decode_shift_eq m 2 k (by norm_num) (by norm_num)
          simp only [show (3 : Nat) - 2 = 1 from rfl] at hds
          rw [hds]
      · rcases Nat.lt_or_ge m 0x10000 with hc3 | hc3
        · rw [asert_encode4 m k ht hc2 hc3]
          rw [asert_decode_pack (3 + k) (m * 256 ^ 0) (by omega) (by norm_num; omega)]
          have hds := decode_shift_eq m 3 k (by norm_num) (by norm_num)
          simp only [show (3 : Nat) - 3 = 0 from rfl] at hds
          rw [hds]
        · rw [asert_encode5 m k ht hc3 hm]
          rw [asert_decode_pack (3 + k) (m * 256 ^ 0) (by omega) (by norm_num; omega)]
          have hds := decode_shift_eq m 3 k (by norm_num) (by norm_num)
          simp only [show (3 : Nat) - 3 = 0 from rfl] at hds
          rw [hds]

/-- Witness for the amended C5 at the anchor target of the network. -/
theorem C5_signed_magnitude_roundtrip_witness :
    asert_bits_to_target (asert_target_to_bits (0xfffff * 256 ^ 27) 0) =
      .ok (0xfffff * 256 ^ 27) :=
  C5_signed_magnitude_roundtrip 0xfffff 27 0 (by norm_num) (by norm_num)

/-- C6 counterexample: the word 0x00800000 has the negative flag bit
set, yet the decoder accepts it and returns 0, because both checks in
the source are guarded by the mantissa being nonzero after the
size-dependent shift. -/
theorem C6_counterexample :
    (0x00800000 : Nat) &&& 0x00800000 ≠ 0 ∧
    asert_bits_to_target 0x00800000 = .ok 0 := by
  exact ⟨by decide, rfl⟩

/-- C6 as amended: the decoder rejects a negative-flagged or overflowing
word provided the mantissa is nonzero after the size-dependent shift of
the small-size branch. -/
theorem C6_decoder_rejects (ncompact nword : Nat) (h32 : ncompact < 2 ^ 32)
    (hnw : nword = if ncompact >>> 24 ≤ 3
        then (ncompact &&& 0x007fffff) >>> (8 * (3 - ncompact >>> 24))
        else ncompact &&& 0x007fffff)
    (h0 : nword ≠ 0)
    (hbad : ncompact &&& 0x00800000 ≠ 0 ∨ 34 < ncompact >>> 24 ∨
        (0xff < nword ∧ 33 < ncompact >>> 24) ∨
        (0xffff < nword ∧ 32 < ncompact >>> 24)) :
    ∃ msg, asert_bits_to_target ncompact = .error msg := by
  subst hnw
  unfold asert_bits_to_target
  rw [if_neg (not_not_intro h32)]
  dsimp only
  by_cases hneg : ncompact &&& 0x00800000 ≠ 0
  · rw [if_pos ⟨h0, hneg⟩]
    exact ⟨_, rfl⟩
  · rw [if_neg (show ¬ (_ ∧ ncompact &&& 0x00800000 ≠ 0) from fun hc => hneg hc.2)]
    have hb : 34 < ncompact >>> 24 ∨
        (0xff < (if ncompact >>> 24 ≤ 3
          then (ncompact &&& 0x007fffff) >>> (8 * (3 - ncompact >>> 24))
          else ncompact &&& 0x007fffff) ∧ 33 < ncompact >>> 24) ∨
        (0xffff < (if ncompact >>> 24 ≤ 3
          then (ncompact &&& 0x007fffff) >>> (8 * (3 - ncompact >>> 24))
          else ncompact &&& 0x007fffff) ∧ 32 < ncompact >>> 24) := by
      tauto
    rw [if_pos ⟨h0, hb⟩]
    exact ⟨_, rfl⟩

/-- Witness for the amended C6 on a word with size byte 35. -/
theorem C6_decoder_rejects_witness :
    ∃ msg, asert_bits_to_target 0x23010000 = .error msg :=
  C6_decoder_rejects 0x23010000 0x010000 (by norm_num) (by decide) (by decide)
    (Or.inr (Or.inl (by decide)))

theorem except_bind_ok {α β : Type} (a : α) (f : α → Except String β) :
    (Except.ok a : Except String α).bind f = f a := rfl

theorem bind_ok_eq {α β : Type} (a : α) (f : α → Except String β) :
    (Except.ok a : Except String α) >>= f = f a := rfl

/-- C3 counterexample: at height 3000000, with the anchor header at
bits 0x1e0fffff and the previous header exactly one half-life late,
get_target_asert returns the compact word 0x1c1ffffe, which decodes to
the anchor target divided by 2 ^ 15 - a value below the anchor target
itself and 2 ^ 16 times smaller than double the anchor target, far
outside any compact-encoding rounding of the claimed doubling. -/
theorem C3_counterexample :
    c3PrevHeader.timestamp - c3AnchorHeader.timestamp =
      123 * (3000000 - 2999999) + 7200 ∧
    get_target_asert c3Chain 3000000 c3PrevHeader = .ok 0x1c1ffffe ∧
    asert_bits_to_target 0x1c1ffffe = .ok (0x1ffffe * 2 ^ 200) ∧
    bits_to_target 0x1e0fffff = .ok (0xfffff * 2 ^ 216) ∧
    0x1ffffe * 2 ^ 200 * 65536 = 2 * (0xfffff * 2 ^ 216) ∧
    0x1ffffe * 2 ^ 200 < 0xfffff * 2 ^ 216 := by
  refine ⟨by decide, rfl, rfl, rfl, by norm_num, by norm_num⟩

/-- C3 as amended: one half-life of lateness yields the signed-magnitude
encoding of the anchor target shifted right by 15 bits - double the
on-schedule result (which is the anchor target shifted right by 16), but
not double the anchor target itself, because of the extra constant
right shift of 16 in the source. -/
theorem C3_asert_half_life (c : ChainModel) (height : Int) (prev anchor : Header)
    (hh : 2999999 < height)
    (hread : c.readHeader 2999999 = some anchor)
    (hbits : ∃ t1, bits_to_target anchor.bits = .ok t1)
    (at2 : Nat) (hanchor2 : asert_bits_to_target anchor.bits = .ok at2)
    (htime : prev.timestamp - anchor.timestamp = 123 * (height - 2999999) + 7200) :
    get_target_asert c height prev = .ok (asert_target_to_bits (at2 >>> 15) height) := by
  obtain ⟨t1, ht1⟩ := hbits
  unfold get_target_asert
  rw [if_neg (by omega : ¬ height - 1 < 2999999)]
  rw [hread]
  dsimp only
  rw [ht1, except_bind_ok]
  rw [hanchor2, except_bind_ok]
  rw [htime]
  rw [if_neg (by omega : ¬ height - 1 - 2999999 < 0)]
  have e1 : (123 * (height - 2999999) + 7200 - 123 * (height - 1 - 2999999 + 1)) * 65536 =
      471859200 := by ring
  rw [e1]
  have e2 : cpp_divide 471859200 (2 * 3600) = 65536 := by decide
  rw [e2]
  have e3 : Int.fdiv 65536 65536 = 1 := by decide
  rw [e3]
  have e4 : (Int.emod 65536 65536).toNat = 0 := by decide
  rw [e4]
  norm_num
  have e5 : (at2 * (65536 + (1 <<< 47) >>> 48)) >>> 16 = at2 := by
    norm_num [Nat.shiftLeft_eq, Nat.shiftRight_eq_div_pow]
  rw [e5]
  norm_num
  rw [show Int.toNat 15 = 15 from rfl]

set_option maxRecDepth 8192 in
/-- Witness for the amended C3 at the concrete anchor fixture. -/
theorem C3_asert_half_life_witness :
    get_target_asert c3Chain 3000000 c3PrevHeader =
      .ok (asert_target_to_bits ((0xfffff * 2 ^ 216) >>> 15) 3000000) :=
  C3_asert_half_life c3Chain 3000000 c3PrevHeader c3AnchorHeader (by norm_num)
    rfl ⟨0xfffff * 2 ^ 216, by rfl⟩ (0xfffff * 2 ^ 216) (by rfl) (by decide)

/-- The reading loop of get_target_dgw_v3 on a window of identical-bits,
exactly-spaced headers: the running average stays at the decoded target
and the timespan endpoints are the newest and oldest timestamps. -/
theorem dgwLoop_const (c : ChainModel) (chunk : ChunkHeaders) (height : Int)
    (b t : Nat) (T0 : Int) (hbt : bits_to_target b = .ok t)
    (hread : ∀ i : Int, height - 24 ≤ i → i ≤ height - 1 →
      ∃ hd, c.readHeader i = some hd ∧ hd.bits = b ∧
        hd.timestamp = T0 + 123 * (i - (height - 24))) :
    ∀ (r count : Nat) (past : Nat) (lastT readT : Int),
      count + r = 25 → 1 ≤ count →
      (2 ≤ count → past = t ∧ lastT = T0 + 123 * 23 ∧
        readT = T0 + 123 * (25 - (count : Int))) →
      dgwLoop c chunk height r count past lastT readT =
        .ok (t, T0 + 123 * 23, T0) := by
  intro r
  induction r with
  | zero =>
    intro count past lastT readT hcr h1 hinv
    obtain ⟨hp, hl, hr⟩ := hinv (by omega)
    have hc : count = 25 := by omega
    subst hc
    rw [dgwLoop]
    rw [hp, hl, hr]
    norm_num
  | succ r ih =>
    intro count past lastT readT hcr h1 hinv
    obtain ⟨hd, hhd, hbits, hts⟩ := hread (height - (count : Int))
      (by omega) (by omega)
    rw [dgwLoop]
    rw [show dgwReadHeader c chunk (height - (count : Int)) = .ok hd from by
      unfold dgwReadHeader
      dsimp only
      rw [hhd]
      rw [if_neg (by simp)]]
    rw [bind_ok_eq]
    rw [hbits, hbt, bind_ok_eq]
    dsimp only
    have hpast1 : (if count = 1 then t else past) = t := by
      by_cases hc1 : count = 1
      · rw [if_pos hc1]
      · rw [if_neg hc1]
        exact (hinv (by omega)).1
    have hlast1 : (if count = 1 then hd.timestamp else lastT) = T0 + 123 * 23 := by
      by_cases hc1 : count = 1
      · rw [if_pos hc1, hts, hc1]
        push_cast
        ring
      · rw [if_neg hc1]
        exact (hinv (by omega)).2.1
    rw [hpast1, hlast1]
    have hpast2 : (t * count + t) / (count + 1) = t := by
      rw [show t * count + t = t * (count + 1) from by ring]
      exact Nat.mul_div_cancel _ (by omega)
    rw [hpast2]
    apply ih (count + 1) t (T0 + 123 * 23) hd.timestamp (by omega) (by omega)
    intro _
    refine ⟨rfl, rfl, ?_⟩
    rw [hts]
    push_cast
    ring

set_option maxRecDepth 16384 in
/-- C4 counterexample: 24 identical headers at bits 0x1e0fffff spaced at
exactly 123 seconds yield a target scaled by 2829 / 2952 (the 24-header
window spans only 23 intervals), not the normalized round trip of the
input target. -/
theorem C4_counterexample :
    get_target_dgw_v3 c4Chain 126100 chunkEmpty = .ok (0xf5554 * 2 ^ 216) ∧
    bits_to_target ((c4Header 0).bits) = .ok (0xfffff * 2 ^ 216) ∧
    bits_to_target (target_to_bits (0xfffff * 2 ^ 216)) = .ok (0xfffff * 2 ^ 216) ∧
    (0xf5554 * 2 ^ 216 : Nat) ≠ 0xfffff * 2 ^ 216 := by
  refine ⟨by rfl, by rfl, by rfl, by norm_num⟩

/-- C4 as amended: on a window of 24 identical-bits headers spaced at
exactly TARGET_SPACING, the next target is the normalized round trip of
the input target scaled by 2829 / 2952: the loop reads 24 headers but
their timestamps span only 23 intervals, so actual_timespan is
23 * 123 = 2829 against a target timespan of 24 * 123 = 2952. -/
theorem C4_dgw_on_schedule (c : ChainModel) (height : Int) (chunk : ChunkHeaders)
    (b t : Nat) (T0 : Int)
    (hera : POW_DGW3_HEIGHT ≤ height ∧ height < ASERT_HEIGHT)
    (hbt : bits_to_target b = .ok t)
    (hread : ∀ i : Int, height - 24 ≤ i → i ≤ height - 1 →
      ∃ hd, c.readHeader i = some hd ∧ hd.bits = b ∧
        hd.timestamp = T0 + 123 * (i - (height - 24)))
    (hmax : t * 2829 / 2952 ≤ MAX_TARGET) :
    get_target_dgw_v3 c height chunk =
      bits_to_target (target_to_bits (t * 2829 / 2952)) := by
  unfold get_target_dgw_v3
  rw [show DGW_PAST_BLOCKS = 24 from rfl]
  rw [dgwLoop_const c chunk height b t T0 hbt hread 24 1 0 0 0 (by omega) (by omega)
    (by omega)]
  rw [bind_ok_eq]
  dsimp only
  have ha : T0 + 123 * 23 - T0 = 2829 := by ring
  rw [ha]
  rw [show ((24 : Nat) : Int) * POW_TARGET_SPACING = 2952 from by
    rw [show POW_TARGET_SPACING = 123 from rfl]
    norm_num]
  rw [if_neg (by decide : ¬ (2829 : Int) < Int.fdiv 2952 3)]
  rw [if_neg (by decide : ¬ (2952 : Int) * 3 < 2829)]
  have hfd : Int.fdiv ((t : Int) * 2829) 2952 = ((t * 2829 / 2952 : Nat) : Int) := by
    rw [Int.fdiv_eq_ediv _ (by positivity)]
    push_cast
    rfl
  rw [hfd]
  rw [if_neg (show ¬ (MAX_TARGET : Int) < ((t * 2829 / 2952 : Nat) : Int) from by
    exact_mod_cast Nat.not_lt.mpr hmax)]
  rw [Int.toNat_natCast]

set_option maxRecDepth 16384 in
/-- Witness for the amended C4 at the concrete 24-header fixture. -/
theorem C4_dgw_on_schedule_witness :
    get_target_dgw_v3 c4Chain 126100 chunkEmpty =
      bits_to_target (target_to_bits (0xfffff * 2 ^ 216 * 2829 / 2952)) :=
  C4_dgw_on_schedule c4Chain 126100 chunkEmpty 0x1e0fffff (0xfffff * 2 ^ 216) 1000000
    (by norm_num [POW_DGW3_HEIGHT, ASERT_HEIGHT]) (by rfl)
    (fun i h1 h2 => ⟨c4Header (1000000 + 123 * (i - 126076)), by
      show (if 126076 ≤ i ∧ i ≤ 126099
          then some (c4Header (1000000 + 123 * (i - 126076))) else none) =
        some (c4Header (1000000 + 123 * (i - 126076)))
      rw [if_pos (by constructor <;> omega)], rfl, by
        show (1000000 + 123 * (i - 126076) : Int) = 1000000 + 123 * (i - (126100 - 24))
        norm_num⟩)
    (by decide)

/-- C1: the insufficient-proof-of-work raise of verify_header (line 482)
is swallowed by the enclosing except handler (line 484).  Below the
ASERT height on a non-test network, with the expected-hash,
previous-hash and bits checks all passing and the compact form of the
proof-of-work hash exceeding the target, verify_header returns False
normally instead of signalling an error. -/
theorem C1_pow_check_swallowed (net : Net) (sha256d powHash : List Nat → List Nat)
    (header : Header) (prev_hash : List Nat) (target : Nat)
    (hnet : net.TESTNET = false)
    (hh : header.block_height < ASERT_HEIGHT)
    (hprev : header.prev_block_hash = some prev_hash)
    (hbits : header.bits = target_to_bits target)
    (hpow : target < target_to_bits (beNat (bfh (pow_hash_header powHash header)))) :
    verify_header net sha256d powHash header prev_hash target none = .ok (some false) := by
  unfold verify_header
  dsimp only
  rw [if_neg (by simp)]
  rw [hprev, if_neg (by simp)]
  rw [hnet]
  rw [if_neg (by simp)]
  rw [if_neg (Int.not_le.mpr hh)]
  rw [hbits]
  rw [if_neg (by simp)]
  rw [if_pos hpow]

set_option maxRecDepth 8192 in
/-- Witness for C1: a height-1 mainnet header with bits 0x03008000
(target 0x8000) and an all-ff proof-of-work hash is returned normally
as False. -/
theorem C1_pow_check_swallowed_witness :
    mainNet.TESTNET = false ∧
    c1Header.block_height < ASERT_HEIGHT ∧
    c1Header.prev_block_hash = some (List.replicate 64 0) ∧
    c1Header.bits = target_to_bits 0x8000 ∧
    0x8000 < target_to_bits
      (beNat (bfh (pow_hash_header (fun _ => List.replicate 32 255) c1Header))) ∧
    verify_header mainNet (fun _ => List.replicate 32 0) (fun _ => List.replicate 32 255)
      c1Header (List.replicate 64 0) 0x8000 none = .ok (some false) :=
  ⟨rfl, by decide, rfl, by rfl, by decide,
    C1_pow_check_swallowed mainNet (fun _ => List.replicate 32 0)
      (fun _ => List.replicate 32 255) c1Header (List.replicate 64 0) 0x8000
      rfl (by decide) rfl (by rfl) (by decide)⟩

/-- C9 counterexample: get_hash at height -1 returns the 64-character
zero string (32 zero bytes in hex), which is not the 68-character
string given by 34 repetitions of 00. -/
theorem C9_counterexample :
    get_hash mainNet (fun _ => []) emptyChain (-1) = .ok (List.replicate 64 0) ∧
    List.replicate 64 0 ≠ List.replicate 68 (0 : Nat) := by
  refine ⟨by rfl, by decide⟩

/-- C9 as amended: for every network, hash function and chain, get_hash
returns the 64-character zero sentinel at height -1 (not a 68-character
one) and the configured genesis id at height 0; and hash_header treats
a header with no previous hash exactly as one carrying the explicit
all-zero previous hash, so a height-0 header with prev_block_hash None
hashes to whatever the explicit-zero-prev serialization hashes to. -/
theorem C9_get_hash_sentinels (net : Net) (sha : List Nat → List Nat)
    (c : ChainModel) (h : Header) (hprev : h.prev_block_hash = none) :
    get_hash net sha c (-1) = .ok (List.replicate 64 0) ∧
    get_hash net sha c 0 = .ok net.GENESIS ∧
    hash_header sha h =
      hash_header sha { h with prev_block_hash := some (List.replicate 64 0) } := by
  refine ⟨by simp [get_hash], by simp [get_hash], ?_⟩
  simp [hash_header, hprev]

/-- Witness for the amended C9 at the concrete fixtures. -/
theorem C9_get_hash_sentinels_witness :
    c9Header.prev_block_hash = none ∧
    (get_hash mainNet (fun _ => []) emptyChain (-1) = .ok (List.replicate 64 0) ∧
    get_hash mainNet (fun _ => []) emptyChain 0 = .ok mainNet.GENESIS ∧
    hash_header (fun _ => []) c9Header =
      hash_header (fun _ => [])
        { c9Header with prev_block_hash := some (List.replicate 64 0) }) :=
  ⟨rfl, C9_get_hash_sentinels mainNet (fun _ => []) emptyChain c9Header rfl⟩

theorem bfh_bytesToNibbles (bs : List Nat) : bfh (bytesToNibbles bs) = bs := by
  induction bs with
  | nil => rfl
  | cons b r ih =>
    show bfh (b / 16 :: b % 16 :: bytesToNibbles r) = b :: r
    rw [bfh, ih]
    have hb : b / 16 * 16 + b % 16 = b := by omega
    rw [hb]

theorem bytesToNibbles_bfh (l : List Nat) (he : l.length % 2 = 0)
    (hd : ∀ d ∈ l, d < 16) : bytesToNibbles (bfh l) = l := by
  induction l using bfh.induct with
  | case1 => rfl
  | case2 a => simp at he
  | case3 a b r ih =>
    rw [bfh]
    show (a * 16 + b) / 16 :: (a * 16 + b) % 16 :: bytesToNibbles (bfh r) = a :: b :: r
    have hb : b < 16 := hd b (by simp)
    have h1 : (a * 16 + b) / 16 = a := by omega
    have h2 : (a * 16 + b) % 16 = b := by omega
    have he2 : r.length % 2 = 0 := by simp at he; omega
    rw [h1, h2, ih he2 (fun d hdm => hd d (by simp [hdm]))]

theorem bfh_length (l : List Nat) : (bfh l).length = (l.length + 1) / 2 := by
  induction l using bfh.induct with
  | case1 => rfl
  | case2 a => simp [bfh]
  | case3 a b r ih =>
    rw [bfh]
    simp only [List.length_cons, ih]
    omega

theorem bytesToNibbles_append (a b : List Nat) :
    bytesToNibbles (a ++ b) = bytesToNibbles a ++ bytesToNibbles b :=
  List.flatMap_append a b _

theorem leBytes_length (w : Nat) : ∀ i, (leBytes w i).length = w := by
  induction w with
  | zero => intro i; rfl
  | succ w ih => intro i; simp [leBytes, ih]

theorem leNat_leBytes (w : Nat) : ∀ i, i < 256 ^ w → leNat (leBytes w i) = i := by
  induction w with
  | zero => intro i hi; interval_cases i; rfl
  | succ w ih =>
    intro i hi
    show leNat (i % 256 :: leBytes w (i / 256)) = i
    show leNat (leBytes w (i / 256)) * 256 + i % 256 = i
    rw [ih (i / 256) (by
      have : 256 ^ (w + 1) = 256 ^ w * 256 := by ring
      omega)]
    omega

theorem serialize_bytes (h : Header) (p : List Nat) (hp : h.prev_block_hash = some p) :
    bfh (serialize_header h) =
      leBytes 4 h.version ++ ((bfh p).reverse ++ ((bfh h.merkle_root).reverse ++
        (leBytes 4 h.timestamp.toNat ++ (leBytes 4 h.bits ++ leBytes 4 h.nonce)))) := by
  unfold serialize_header int_to_hex rev_hex
  rw [hp]
  rw [show (some p).getD (List.replicate 64 0) = p from rfl]
  simp only [← bytesToNibbles_append]
  rw [bfh_bytesToNibbles]
  simp only [List.append_assoc]

/-- C10: deserializing the 80-byte serialization of a header whose
version, timestamp, bits and nonce are unsigned 32-bit integers and
whose previous-hash and merkle-root fields are 64-character hex strings
recovers the header on all six serialized fields, with block_height set
to the given height. -/
theorem C10_header_roundtrip (h : Header) (height : Int) (p : List Nat)
    (hp : h.prev_block_hash = some p)
    (hpl : p.length = 64) (hpd : ∀ d ∈ p, d < 16)
    (hml : h.merkle_root.length = 64) (hmd : ∀ d ∈ h.merkle_root, d < 16)
    (hv : h.version < 2 ^ 32) (ht0 : 0 ≤ h.timestamp) (ht1 : h.timestamp < 2 ^ 32)
    (hb : h.bits < 2 ^ 32) (hn : h.nonce < 2 ^ 32) :
    deserialize_header (bfh (serialize_header h)) height =
      .ok { h with block_height := height } := by
  rw [serialize_bytes h p hp]
  have lA : (leBytes 4 h.version).length = 4 := leBytes_length 4 _
  have lB : (bfh p).reverse.length = 32 := by
    rw [List.length_reverse, bfh_length, hpl]
  have lC : (bfh h.merkle_root).reverse.length = 32 := by
    rw [List.length_reverse, bfh_length, hml]
  have lD : (leBytes 4 h.timestamp.toNat).length = 4 := leBytes_length 4 _
  have lE : (leBytes 4 h.bits).length = 4 := leBytes_length 4 _
  have lF : (leBytes 4 h.nonce).length = 4 := leBytes_length 4 _
  set A := leBytes 4 h.version with hA
  set B := (bfh p).reverse with hB
  set C := (bfh h.merkle_root).reverse with hC
  set D := leBytes 4 h.timestamp.toNat with hD
  set E := leBytes 4 h.bits with hE
  set F := leBytes 4 h.nonce with hF
  have hlen : (A ++ (B ++ (C ++ (D ++ (E ++ F))))).length = 80 := by
    simp only [List.length_append, lA, lB, lC, lD, lE, lF]
  unfold deserialize_header
  rw [if_neg (by intro hc; rw [hc] at hlen; simp at hlen)]
  rw [if_neg (by rw [hlen]; exact fun hc => hc rfl)]
  -- slices
  have d0 : (A ++ (B ++ (C ++ (D ++ (E ++ F))))).drop 0 = A ++ (B ++ (C ++ (D ++ (E ++ F)))) := rfl
  have t4 : (A ++ (B ++ (C ++ (D ++ (E ++ F))))).take 4 = A := List.take_left' lA
  have d4 : (A ++ (B ++ (C ++ (D ++ (E ++ F))))).drop 4 = B ++ (C ++ (D ++ (E ++ F))) :=
    List.drop_left' lA
  have d36 : (A ++ (B ++ (C ++ (D ++ (E ++ F))))).drop 36 = C ++ (D ++ (E ++ F)) := by
    rw [show (36 : Nat) = 4 + 32 from rfl, ← List.drop_drop, d4]
    exact List.drop_left' lB
  have d68 : (A ++ (B ++ (C ++ (D ++ (E ++ F))))).drop 68 = D ++ (E ++ F) := by
    rw [show (68 : Nat) = 36 + 32 from rfl, ← List.drop_drop, d36]
    exact List.drop_left' lC
  have d72 : (A ++ (B ++ (C ++ (D ++ (E ++ F))))).drop 72 = E ++ F := by
    rw [show (72 : Nat) = 68 + 4 from rfl, ← List.drop_drop, d68]
    exact List.drop_left' lD
  have d76 : (A ++ (B ++ (C ++ (D ++ (E ++ F))))).drop 76 = F := by
    rw [show (76 : Nat) = 72 + 4 from rfl, ← List.drop_drop, d72]
    exact List.drop_left' lE
  rw [d0, t4, d4, d36, d68, d72, d76]
  rw [List.take_left' lB, List.take_left' lC, List.take_left' lD, List.take_left' lE]
  rw [List.take_of_length_le (le_of_eq lF)]
  congr 1
  have hpe : p.length % 2 = 0 := by rw [hpl]
  have hme : h.merkle_root.length % 2 = 0 := by rw [hml]
  have ev : hash_encode B = p := by
    rw [hB]
    show bytesToNibbles (bfh p).reverse.reverse = p
    rw [List.reverse_reverse]
    exact bytesToNibbles_bfh p hpe hpd
  have ec : hash_encode C = h.merkle_root := by
    rw [hC]
    show bytesToNibbles (bfh h.merkle_root).reverse.reverse = h.merkle_root
    rw [List.reverse_reverse]
    exact bytesToNibbles_bfh _ hme hmd
  have eA : leNat A = h.version := leNat_leBytes 4 _ hv
  have eD : leNat D = h.timestamp.toNat := leNat_leBytes 4 _ (by omega)
  have eE : leNat E = h.bits := leNat_leBytes 4 _ hb
  have eF : leNat F = h.nonce := leNat_leBytes 4 _ hn
  rw [ev, ec, eA, eD, eE, eF, Int.toNat_of_nonneg ht0, ← hp]

/-- Witness for C10 at a concrete header. -/
theorem C10_header_roundtrip_witness :
    c1Header.prev_block_hash = some (List.replicate 64 0) ∧
    (List.replicate 64 (0 : Nat)).length = 64 ∧
    c1Header.merkle_root.length = 64 ∧
    c1Header.version < 2 ^ 32 ∧
    deserialize_header (bfh (serialize_header c1Header)) 7 =
      .ok { c1Header with block_height := 7 } :=
  ⟨rfl, by decide, by decide, by decide,
    C10_header_roundtrip c1Header 7 (List.replicate 64 0) rfl (by decide)
      (fun d hd => by simp at hd; omega) (by decide)
      (fun d hd => by simp [c1Header] at hd; omega)
      (by decide) (by decide) (by decide) (by decide) (by decide)⟩

/-- C8: a chain whose tip height is at or at least the ASERT transition
height is never swapped below its parent: _swap_with_parent returns
False and leaves the registry (and with it every chain's file,
forkpoint and parent fields) unchanged, for every chainwork oracle. -/
theorem C8_no_swap_in_asert_era (sha256d : List Nat → List Nat) (cw : List Nat → Int)
    (w : World) (selfId : List Nat) (self : SwapChain)
    (hself : w.chains selfId = some self)
    (hh : ASERT_HEIGHT ≤ SwapChain.height self) :
    _swap_with_parent sha256d cw w selfId = (false, w) := by
  unfold _swap_with_parent
  rw [hself]
  dsimp only
  cases hp : self.parent with
  | none => rfl
  | some pid =>
    dsimp only
    rw [if_pos hh]

/-- Witness for C8 at a concrete one-chain registry in the ASERT era. -/
theorem C8_no_swap_in_asert_era_witness :
    c8World.chains [1] = some c8Chain ∧
    ASERT_HEIGHT ≤ SwapChain.height c8Chain ∧
    _swap_with_parent (fun _ => []) (fun _ => 0) c8World [1] = (false, c8World) :=
  ⟨rfl, by decide,
    C8_no_swap_in_asert_era (fun _ => []) (fun _ => 0) c8World [1] c8Chain rfl (by decide)⟩

theorem int_emod_eq_mod (a b : Int) : Int.emod a b = a % b := rfl

/-- get_hash at the sentinel height -1 always returns the all-zero hash
(first branch of Blockchain.get_hash, line 708). -/
theorem get_hash_at_neg1 (net : Net) (sha : List Nat → List Nat) (c : ChainModel) :
    get_hash net sha c (-1) = .ok (List.replicate 64 0) := by
  simp [get_hash]

theorem descend_to_sentinel (net : Net) (sha : List Nat → List Nat) (c : ChainModel)
    (cache : List Nat → Option Int) (c0 : Int)
    (hc0 : cache (List.replicate 64 0) = some c0) :
    ∀ (K f : Nat),
      (∀ m : Nat, m < K → ∃ s, get_hash net sha c ((m : Int) * 2016 + 2015) = .ok s ∧
        cache s = none) →
      K + 1 ≤ f →
      descendAux net sha c cache f ((K : Int) * 2016 - 1) = .ok (-1) := by
  intro K
  induction K with
  | zero =>
    intro f _ hf
    obtain ⟨f', rfl⟩ : ∃ f', f = f' + 1 := ⟨f - 1, by omega⟩
    rw [show ((0 : Nat) : Int) * 2016 - 1 = -1 from by norm_num]
    rw [descendAux]
    rw [get_hash_at_neg1, bind_ok_eq]
    rw [hc0]
    rw [if_pos (by simp)]
  | succ K ih =>
    intro f hm hf
    obtain ⟨f', rfl⟩ : ∃ f', f = f' + 1 := ⟨f - 1, by omega⟩
    obtain ⟨s, hs, hsn⟩ := hm K (by omega)
    rw [show ((K + 1 : Nat) : Int) * 2016 - 1 = (K : Int) * 2016 + 2015 from by
      push_cast; ring]
    rw [descendAux]
    rw [hs, bind_ok_eq]
    rw [hsn]
    rw [if_neg (by simp)]
    rw [if_neg (by
      show ¬ (K : Int) * 2016 + 2015 ≤ -1
      have : (0 : Int) ≤ (K : Int) := Int.natCast_nonneg K
      omega)]
    rw [show (K : Int) * 2016 + 2015 - 2016 = (K : Int) * 2016 - 1 from by ring]
    exact ih f' (fun m hmk => hm m (by omega)) (by omega)

theorem ascend_snoc (c : ChainModel) :
    ∀ (n : Nat) (ch base : Int),
      ascendAux c (n + 1) ch base =
        (ascendAux c n ch base).bind fun res =>
          (chainwork_of_header_at_height c (res.1 + 2016)).bind fun wv =>
            .ok (res.1 + 2016, res.2 + 2016 * wv) := by
  intro n
  induction n with
  | zero =>
    intro ch base
    rw [show ascendAux c (0 + 1) ch base =
        (chainwork_of_header_at_height c (ch + 2016)).bind fun w =>
          ascendAux c 0 (ch + 2016) (base + 2016 * w) from rfl]
    rw [show ascendAux c 0 ch base = (.ok (ch, base) : Except String (Int × Int)) from rfl]
    rw [show ((Except.ok (ch, base) : Except String (Int × Int)).bind fun res =>
        (chainwork_of_header_at_height c (res.1 + 2016)).bind fun wv =>
          (.ok (res.1 + 2016, res.2 + 2016 * wv) : Except String (Int × Int))) =
        (chainwork_of_header_at_height c (ch + 2016)).bind fun wv =>
          .ok (ch + 2016, base + 2016 * wv) from rfl]
    cases hq : chainwork_of_header_at_height c (ch + 2016) with
    | ok wv =>
      rw [except_bind_ok, except_bind_ok]
      rw [show ascendAux c 0 (ch + 2016) (base + 2016 * wv) =
        (.ok (ch + 2016, base + 2016 * wv) : Except String (Int × Int)) from rfl]
    | error e => rfl
  | succ n ih =>
    intro ch base
    rw [show ascendAux c (n + 1 + 1) ch base =
        (chainwork_of_header_at_height c (ch + 2016)).bind fun w =>
          ascendAux c (n + 1) (ch + 2016) (base + 2016 * w) from rfl]
    rw [show ascendAux c (n + 1) ch base =
        (chainwork_of_header_at_height c (ch + 2016)).bind fun w =>
          ascendAux c n (ch + 2016) (base + 2016 * w) from rfl]
    cases hq : chainwork_of_header_at_height c (ch + 2016) with
    | ok wv =>
      rw [except_bind_ok, except_bind_ok]
      exact ih (ch + 2016) (base + 2016 * wv)
    | error e => rfl

set_option maxRecDepth 4096 in
theorem ascend_exists (c : ChainModel) :
    ∀ (n : Nat) (base : Int),
      (∀ m : Nat, m < n → ∃ wv,
        chainwork_of_header_at_height c ((m : Int) * 2016 + 2015) = .ok wv) →
      ∃ R, ascendAux c n (-1) base = .ok ((n : Int) * 2016 - 1, R) := by
  intro n
  induction n with
  | zero =>
    intro base _
    refine ⟨base, ?_⟩
    rw [show ascendAux c 0 (-1) base = (.ok (-1, base) : Except String (Int × Int)) from rfl]
    norm_num
  | succ n ih =>
    intro base hw
    obtain ⟨R, hR⟩ := ih base (fun m hm => hw m (by omega))
    obtain ⟨wv, hwv⟩ := hw n (by omega)
    refine ⟨R + 2016 * wv, ?_⟩
    rw [ascend_snoc, hR]
    rw [show ((Except.ok (((n : Int) * 2016 - 1), R) : Except String (Int × Int)).bind
        fun res => (chainwork_of_header_at_height c (res.1 + 2016)).bind fun wv =>
          (.ok (res.1 + 2016, res.2 + 2016 * wv) : Except String (Int × Int))) =
        (chainwork_of_header_at_height c ((n : Int) * 2016 - 1 + 2016)).bind fun wv =>
          .ok ((n : Int) * 2016 - 1 + 2016, R + 2016 * wv) from rfl]
    rw [show (n : Int) * 2016 - 1 + 2016 = (n : Int) * 2016 + 2015 from by ring]
    rw [hwv]
    rw [show ((Except.ok wv : Except String Int).bind fun wv2 =>
        (.ok ((n : Int) * 2016 + 2015, R + 2016 * wv2) : Except String (Int × Int))) =
        .ok ((n : Int) * 2016 + 2015, R + 2016 * wv) from rfl]
    rw [show (n : Int) * 2016 + 2015 = ((n + 1 : Nat) : Int) * 2016 - 1 from by
      push_cast; ring]

theorem get_chainwork_formula (net : Net) (sha : List Nat → List Nat) (c : ChainModel)
    (cache : List Nat → Option Int) (c0 : Int)
    (hnet : net.TESTNET = false)
    (hc0 : cache (List.replicate 64 0) = some c0)
    (h : Int) (k : Nat) (hk : Int.fdiv h 2016 = (k : Int))
    (hm : ∀ m : Nat, m < k → ∃ s, get_hash net sha c ((m : Int) * 2016 + 2015) = .ok s ∧
      cache s = none)
    (R : Int) (hR : ascendAux c k (-1) c0 = .ok ((k : Int) * 2016 - 1, R))
    (wv : Int) (hw : chainwork_of_header_at_height c ((k : Int) * 2016 + 2015) = .ok wv) :
    get_chainwork net sha c cache h = .ok (R + (Int.emod h 2016 + 1) * wv) := by
  unfold get_chainwork
  rw [hnet]
  rw [if_neg (by simp)]
  dsimp only
  rw [hk]
  rw [show ((k : Int) * 2016 - 1 + 2016).toNat / 2016 + 2 = k + 2 from by omega]
  rw [descend_to_sentinel net sha c cache c0 hc0 k (k + 2) hm (by omega)]
  rw [bind_ok_eq]
  rw [if_neg (by norm_num)]
  rw [get_hash_at_neg1, bind_ok_eq]
  rw [hc0]
  dsimp only
  rw [show ((k : Int) * 2016 - 1 - -1).toNat / 2016 = k from by omega]
  rw [hR, bind_ok_eq]
  dsimp only
  rw [show (k : Int) * 2016 - 1 + 2016 = (k : Int) * 2016 + 2015 from by ring]
  rw [hw, bind_ok_eq]

set_option maxRecDepth 4096 in
/-- C7: on a non-test network, with the chainwork cache holding the
sentinel value at the all-zero hash and missing the chunk-boundary
hashes of the chain, and with every chunk of the chain carrying
positive per-header work, the cumulative work is strictly increasing in
the height: get_chainwork h is strictly below get_chainwork (h + 1). -/
theorem C7_chainwork_strictly_increasing (net : Net) (sha : List Nat → List Nat)
    (c : ChainModel) (cache : List Nat → Option Int) (c0 : Int) (h : Int)
    (hnet : net.TESTNET = false)
    (hc0 : cache (List.replicate 64 0) = some c0)
    (hh : 0 ≤ h)
    (hmiss : ∀ m : Nat, (m : Int) < Int.fdiv (h + 1) 2016 →
      ∃ s, get_hash net sha c ((m : Int) * 2016 + 2015) = .ok s ∧ cache s = none)
    (hwork : ∀ m : Nat, (m : Int) ≤ Int.fdiv (h + 1) 2016 →
      ∃ wv, chainwork_of_header_at_height c ((m : Int) * 2016 + 2015) = .ok wv ∧ 1 ≤ wv) :
    ∃ w1 w2, get_chainwork net sha c cache h = .ok w1 ∧
      get_chainwork net sha c cache (h + 1) = .ok w2 ∧ w1 < w2 := by
  have hfd : Int.fdiv h 2016 = h / 2016 := Int.fdiv_eq_ediv _ (by norm_num)
  have hfd1 : Int.fdiv (h + 1) 2016 = (h + 1) / 2016 := Int.fdiv_eq_ediv _ (by norm_num)
  have hknn : 0 ≤ h / 2016 := Int.ediv_nonneg hh (by norm_num)
  obtain ⟨k, hk⟩ : ∃ k : Nat, h / 2016 = (k : Int) := ⟨(h / 2016).toNat, by omega⟩
  have hem : Int.emod h 2016 = h % 2016 := rfl
  have hem1 : Int.emod (h + 1) 2016 = (h + 1) % 2016 := rfl
  by_cases hr : Int.emod h 2016 = 2015
  all_goals rw [hem] at hr
  · -- h is the last height of its chunk: the second computation runs one
    -- more ascending step and adds the first slice of the next chunk
    have hk1 : (h + 1) / 2016 = (k : Int) + 1 := by omega
    have hw' : ∀ m : Nat, m < k + 1 → ∃ wv,
        chainwork_of_header_at_height c ((m : Int) * 2016 + 2015) = .ok wv := by
      intro m hmk
      obtain ⟨wv, hwv, _⟩ := hwork m (by rw [hfd1, hk1]; push_cast; omega)
      exact ⟨wv, hwv⟩
    obtain ⟨R, hR⟩ := ascend_exists c k c0 (fun m hmk => hw' m (by omega))
    obtain ⟨wK, hwK, h1K⟩ := hwork k (by rw [hfd1, hk1]; push_cast; omega)
    obtain ⟨wv', hwv', h1'⟩ := hwork (k + 1) (by rw [hfd1, hk1]; push_cast; omega)
    have hm1 : ∀ m : Nat, m < k + 1 → ∃ s,
        get_hash net sha c ((m : Int) * 2016 + 2015) = .ok s ∧ cache s = none := by
      intro m hmk
      exact hmiss m (by rw [hfd1, hk1]; push_cast; omega)
    have hR1 : ascendAux c (k + 1) (-1) c0 = .ok (((k + 1 : Nat) : Int) * 2016 - 1, R + 2016 * wK) := by
      rw [ascend_snoc, hR]
      rw [show ((Except.ok (((k : Int) * 2016 - 1), R) : Except String (Int × Int)).bind
          fun res => (chainwork_of_header_at_height c (res.1 + 2016)).bind fun wv =>
            (.ok (res.1 + 2016, res.2 + 2016 * wv) : Except String (Int × Int))) =
          (chainwork_of_header_at_height c ((k : Int) * 2016 - 1 + 2016)).bind fun wv =>
            .ok ((k : Int) * 2016 - 1 + 2016, R + 2016 * wv) from rfl]
      rw [show (k : Int) * 2016 - 1 + 2016 = (k : Int) * 2016 + 2015 from by ring]
      rw [hwK, except_bind_ok]
      rw [show (k : Int) * 2016 + 2015 = ((k + 1 : Nat) : Int) * 2016 - 1 from by
        push_cast; ring]
    have e1 := get_chainwork_formula net sha c cache c0 hnet hc0 h k
      (by rw [hfd]; exact hk) (fun m hmk => hm1 m (by omega)) R hR wK hwK
    have e2 := get_chainwork_formula net sha c cache c0 hnet hc0 (h + 1) (k + 1)
      (by rw [hfd1, hk1]; push_cast; ring)
      hm1 (R + 2016 * wK)
      hR1 wv' hwv'
    refine ⟨_, _, e1, e2, ?_⟩
    have hm2 : Int.emod (h + 1) 2016 = 0 := by rw [hem1]; omega
    have hrr : Int.emod h 2016 = 2015 := by rw [hem]; omega
    rw [hrr, hm2]
    have hx : (2015 + 1 : Int) * wK = 2016 * wK := by ring
    have hy : (R + 2016 * wK) + ((0 : Int) + 1) * wv' = R + 2016 * wK + wv' := by ring
    rw [hx, hy]
    linarith [h1']
  · -- h and h + 1 share a chunk: only the final multiplier changes
    have hk1 : (h + 1) / 2016 = (k : Int) := by omega
    have hw' : ∀ m : Nat, m < k → ∃ wv,
        chainwork_of_header_at_height c ((m : Int) * 2016 + 2015) = .ok wv := by
      intro m hmk
      obtain ⟨wv, hwv, _⟩ := hwork m (by rw [hfd1, hk1]; push_cast; omega)
      exact ⟨wv, hwv⟩
    obtain ⟨R, hR⟩ := ascend_exists c k c0 hw'
    obtain ⟨wv, hwv, h1⟩ := hwork k (by rw [hfd1, hk1])
    have hm1 : ∀ m : Nat, m < k → ∃ s,
        get_hash net sha c ((m : Int) * 2016 + 2015) = .ok s ∧ cache s = none := by
      intro m hmk
      exact hmiss m (by rw [hfd1, hk1]; push_cast; omega)
    have e1 := get_chainwork_formula net sha c cache c0 hnet hc0 h k
      (by rw [hfd]; exact hk) hm1 R hR wv hwv
    have e2 := get_chainwork_formula net sha c cache c0 hnet hc0 (h + 1) k
      (by rw [hfd1]; exact hk1) hm1 R hR wv hwv
    refine ⟨_, _, e1, e2, ?_⟩
    have hm2 : Int.emod (h + 1) 2016 = Int.emod h 2016 + 1 := by rw [hem1, hem]; omega
    rw [hm2]
    have hx : (Int.emod h 2016 + 1 + 1) * wv = (Int.emod h 2016 + 1) * wv + wv := by ring
    rw [hx]
    linarith [h1]

set_option maxRecDepth 8192 in
/-- Witness for C7 at height 0 on a mainnet chain with an empty header
store and the sentinel-only cache. -/
theorem C7_chainwork_strictly_increasing_witness :
    mainNet.TESTNET = false ∧
    c7Cache (List.replicate 64 0) = some 0 ∧
    (∃ w1 w2, get_chainwork mainNet (fun _ => []) emptyChain c7Cache 0 = .ok w1 ∧
      get_chainwork mainNet (fun _ => []) emptyChain c7Cache (0 + 1) = .ok w2 ∧
      w1 < w2) :=
  ⟨rfl, rfl,
    C7_chainwork_strictly_increasing mainNet (fun _ => []) emptyChain c7Cache 0 0
      rfl rfl (le_refl 0)
      (by
        intro m hm
        rw [show Int.fdiv (0 + 1) 2016 = 0 from rfl] at hm
        omega)
      (by
        intro m hm
        rw [show Int.fdiv (0 + 1) 2016 = 0 from rfl] at hm
        have hm0 : m = 0 := by omega
        subst hm0
        refine ⟨Int.fdiv (2 ^ 256 - (MAX_TARGET : Int) - 1) ((MAX_TARGET : Int) + 1) + 1,
          by rfl, by decide⟩)⟩

end ElectrumMars
